import Mathlib

/-!
# Verification of the YAML key-path locator and value rewriter

Shallow embedding of `main.go` (package `main`): the line scanner
`findYAMLKeyPosition`, the rewriter `updateVersionInContent`, and the input
handling around them (`getInput`, `validateInput`, the commit message of
`updateFile`).

Go strings are byte sequences; a string is modelled as the list of its bytes,
each byte a natural number below 256. Go `int` values are modelled as `Int`
(documents are far shorter than 2^63 bytes, so no arithmetic wraps). A Go
run-time panic (index or slice bound out of range) is an explicit outcome.
-/

namespace YamlPatch

/-- A Go string: the list of its bytes. -/
abbrev GoString := List Nat

/-- The bytes of an ASCII literal. -/
def ascii (s : String) : GoString := s.toList.map Char.toNat

/-! ## The standard-library functions the program calls -/

/-- Position of the first occurrence of `sub` in `s`, if there is one. -/
def indexNat : GoString → GoString → Option Nat
  | [], sub => if sub = [] then some 0 else none
  | c :: cs, sub =>
    if sub.isPrefixOf (c :: cs) then some 0
    else (indexNat cs sub).map (fun i => i + 1)

/-- Go `strings.Index(s, sub)`: index of the first occurrence, `-1` if none. -/
def Index (s sub : GoString) : Int :=
  match indexNat s sub with
  | some i => (i : Int)
  | none => -1

/-- Go `strings.HasPrefix`. -/
def HasPrefix (s pre : GoString) : Bool := pre.isPrefixOf s

/-- Go `strings.Split(s, sep)` for a one-byte separator `sep`, the only kind
the program passes (a line feed or a dot). -/
def Split : GoString → Nat → List GoString
  | [], _ => [[]]
  | c :: cs, sep =>
    if c = sep then [] :: Split cs sep
    else
      match Split cs sep with
      | l :: ls => (c :: l) :: ls
      | [] => [[c]]

/-- Go `strings.SplitN(s, sep, 2)` for a one-byte separator: the text before
the first separator and the text after it, or `s` alone when it has none. -/
def SplitN2 : GoString → Nat → List GoString
  | [], _ => [[]]
  | c :: cs, sep =>
    if c = sep then [[], cs]
    else
      match SplitN2 cs sep with
      | [a, b] => [c :: a, b]
      | _ => [c :: cs]

/-- Go `strings.Join(elems, sep)`. -/
def Join : List GoString → GoString → GoString
  | [], _ => []
  | [a], _ => a
  | a :: b :: rest, sep => a ++ sep ++ Join (b :: rest) sep

/-- Go `utf8.RuneError`. -/
def RuneError : Nat := 0xFFFD

/-- Go `utf8.DecodeRuneInString`: the first rune of `s` and its width in
bytes; invalid or truncated encodings give `(RuneError, 1)`. -/
def DecodeRuneInString (s : GoString) : Nat × Nat :=
  match s with
  | [] => (RuneError, 0)
  | s0 :: t =>
    if s0 < 0x80 then (s0, 1)
    else if s0 < 0xC2 ∨ 0xF4 < s0 then (RuneError, 1)
    else
      let sz := if s0 < 0xE0 then 2 else if s0 < 0xF0 then 3 else 4
      let lo := if s0 = 0xE0 then 0xA0 else if s0 = 0xF0 then 0x90 else 0x80
      let hi := if s0 = 0xED then 0x9F else if s0 = 0xF4 then 0x8F else 0xBF
      if s.length < sz then (RuneError, 1)
      else
        match t with
        | [] => (RuneError, 1)
        | s1 :: t1 =>
          if s1 < lo ∨ hi < s1 then (RuneError, 1)
          else if sz ≤ 2 then ((s0 % 32) * 64 + s1 % 64, 2)
          else
            match t1 with
            | [] => (RuneError, 1)
            | s2 :: t2 =>
              if s2 < 0x80 ∨ 0xBF < s2 then (RuneError, 1)
              else if sz ≤ 3 then ((s0 % 16) * 4096 + (s1 % 64) * 64 + s2 % 64, 3)
              else
                match t2 with
                | [] => (RuneError, 1)
                | s3 :: _ =>
                  if s3 < 0x80 ∨ 0xBF < s3 then (RuneError, 1)
                  else ((s0 % 8) * 262144 + (s1 % 64) * 4096 + (s2 % 64) * 64 + s3 % 64, 4)

/-- Go `utf8.RuneStart`: the byte is not a continuation byte. -/
def RuneStart (b : Nat) : Bool := !(0x80 ≤ b && b ≤ 0xBF)

/-- The loop of `utf8.DecodeLastRuneInString` that walks `start` back to a
rune-start byte, at most down to `lim`; `none` stands for `start < lim`. -/
def backToRuneStart (s : GoString) (lim : Nat) : Nat → Nat → Option Nat
  | 0, _ => none
  | fuel + 1, start =>
    if start < lim then none
    else if RuneStart (s.getD start 0) then some start
    else if start = 0 then none
    else backToRuneStart s lim fuel (start - 1)

/-- Go `utf8.DecodeLastRuneInString`: the last rune of `s` and its width. -/
def DecodeLastRuneInString (s : GoString) : Nat × Nat :=
  let n := s.length
  if n = 0 then (RuneError, 0)
  else
    let r := s.getD (n - 1) 0
    if r < 0x80 then (r, 1)
    else
      let lim := n - 4
      let start :=
        if n - 1 = 0 then 0
        else
          match backToRuneStart s lim 4 (n - 2) with
          | some st => st
          | none => if lim = 0 then 0 else lim - 1
      let (r, size) := DecodeRuneInString ((s.drop start).take (n - start))
      if start + size ≠ n then (RuneError, 1) else (r, size)

/-- Go `unicode.IsSpace`. -/
def IsSpace (r : Nat) : Bool :=
  r = 0x09 || r = 0x0A || r = 0x0B || r = 0x0C || r = 0x0D || r = 0x20 ||
  r = 0x85 || r = 0xA0 || r = 0x1680 || (0x2000 ≤ r && r ≤ 0x200A) ||
  r = 0x2028 || r = 0x2029 || r = 0x202F || r = 0x205F || r = 0x3000

/-- The table `asciiSpace` of package `strings`. -/
def asciiSpace (c : Nat) : Bool :=
  c = 0x09 || c = 0x0A || c = 0x0B || c = 0x0C || c = 0x0D || c = 0x20

/-- The `for i, r := range s` loop of `strings.indexFunc(s, unicode.IsSpace,
false)`: the byte index of the first rune that is not a space. `skip` counts
the bytes of the current rune still to pass over and `i` is the byte index. -/
def indexNotSpace : GoString → Nat → Nat → Option Nat
  | [], _, _ => none
  | _ :: cs, skip + 1, i => indexNotSpace cs skip (i + 1)
  | c :: cs, 0, i =>
    let (r, size) := DecodeRuneInString (c :: cs)
    if IsSpace r then indexNotSpace cs (size - 1) (i + 1) else some i

/-- Go `strings.TrimLeftFunc(s, unicode.IsSpace)`. -/
def TrimLeftSpace (s : GoString) : GoString :=
  match indexNotSpace s 0 0 with
  | none => []
  | some i => s.drop i

/-- The loop of `strings.lastIndexFunc(s, unicode.IsSpace, false)`, started at
`i = len(s)`: the byte index of the last rune that is not a space. Each turn
lowers `i` by at least one, so `len(s)` turns are enough. -/
def lastIndexNotSpace (s : GoString) : Nat → Nat → Option Nat
  | 0, _ => none
  | fuel + 1, i =>
    if i = 0 then none
    else
      let (r, size) := DecodeLastRuneInString (s.take i)
      let i := i - size
      if IsSpace r then lastIndexNotSpace s fuel i else some i

/-- Go `strings.TrimRightFunc(s, unicode.IsSpace)`. -/
def TrimRightSpace (s : GoString) : GoString :=
  match lastIndexNotSpace s s.length s.length with
  | none => []
  | some i =>
    if 0x80 ≤ s.getD i 0 then s.take (i + (DecodeRuneInString (s.drop i)).2)
    else s.take (i + 1)

/-- The second loop of `strings.TrimSpace`, on the text `s` left after the
leading ASCII spaces are gone: drop trailing ASCII spaces, handing over to the
Unicode-aware trim at the first non-ASCII byte met. `r` is `s` reversed. -/
def trimSpaceEnd (s : GoString) : GoString → GoString
  | [] => []
  | c :: r =>
    if 0x80 ≤ c then TrimRightSpace (s.take (r.length + 1))
    else if asciiSpace c then trimSpaceEnd s r
    else s.take (r.length + 1)

/-- Go `strings.TrimSpace`: the first loop drops leading ASCII spaces and hands
over to `TrimFunc` at the first non-ASCII byte met. -/
def TrimSpace : GoString → GoString
  | [] => []
  | c :: cs =>
    if 0x80 ≤ c then TrimRightSpace (TrimLeftSpace (c :: cs))
    else if asciiSpace c then TrimSpace cs
    else trimSpaceEnd (c :: cs) (c :: cs).reverse

/-- The match of the regular expression `^(\s*)` on `line`: its leading bytes
in the class `\s`, which for Go's `regexp` is `[\t\n\f\r ]`. -/
def reLeadingSpace (line : GoString) : GoString :=
  line.takeWhile (fun c => c = 0x09 || c = 0x0A || c = 0x0C || c = 0x0D || c = 0x20)

/-- Go `unicode.IsDigit(rune(b))` for a byte `b`: below U+0100 the only
decimal digits are `'0'` to `'9'`. -/
def IsDigit (b : Nat) : Bool := 0x30 ≤ b && b ≤ 0x39

/-- Go `s[lo:]`; `none` is the slice-bounds panic. -/
def sliceFrom (s : GoString) (lo : Int) : Option GoString :=
  if 0 ≤ lo ∧ lo ≤ s.length then some (s.drop lo.toNat) else none

/-- Go `s[0:hi]`; `none` is the slice-bounds panic. -/
def sliceTo (s : GoString) (hi : Int) : Option GoString :=
  if 0 ≤ hi ∧ hi ≤ s.length then some (s.take hi.toNat) else none

/-! ## `findYAMLKeyPosition` -/

/-- What one turn of the `for _, line := range lines` loop does. -/
inductive Step where
  /-- The `return pos + strings.Index(line, key), key, true` statement. -/
  | found (pos : Int) (key : GoString)
  /-- The next turn, with the values of `pos`, `indent` and `keyPath`
  (its first segment and the segments after it). -/
  | next (pos : Int) (indent : Nat) (k : GoString) (ks : List GoString)
  deriving DecidableEq, Repr

/-- The body of the loop of `findYAMLKeyPosition` on `line`. The key path is
kept as its first segment `k` (`keyPath[0]`) and the rest `ks`
(`keyPath[1:]`): the path is non-empty on entry and only shortened while it
has two segments or more. -/
def loopBody (line : GoString) (pos : Int) (indent : Nat) (k : GoString)
    (ks : List GoString) : Step :=
  if line = [] ∨ HasPrefix line [0x23] then .next pos indent k ks
  else
    let curIndent := (reLeadingSpace line).length / 2
    let indent := if curIndent < indent then curIndent else indent
    if curIndent = indent then
      match SplitN2 line 0x3A with
      | [p0, _] =>
        let key := TrimSpace p0
        if key = k then
          match ks with
          | [] => .found (pos + Index line key) key
          | k1 :: ks1 => .next (pos + (line.length + 1)) (indent + 1) k1 ks1
        else .next (pos + (line.length + 1)) indent k ks
      | _ => .next pos indent k ks
    else .next (pos + (line.length + 1)) indent k ks

/-- The loop of `findYAMLKeyPosition` over the remaining lines, followed by
the final `return 0, "", false`. -/
def scanLines : List GoString → Int → Nat → GoString → List GoString →
    Int × GoString × Bool
  | [], _, _, _, _ => (0, [], false)
  | line :: rest, pos, indent, k, ks =>
    match loopBody line pos indent k ks with
    | .found p key => (p, key, true)
    | .next pos1 indent1 k1 ks1 => scanLines rest pos1 indent1 k1 ks1

/-- Go `findYAMLKeyPosition(yamlData, keyPath)`: `(pos, key, found)`. -/
def findYAMLKeyPosition (yamlData : GoString) (keyPath : List GoString) :
    Int × GoString × Bool :=
  match keyPath with
  | [] => (0, [], false)
  | k :: ks => scanLines (Split yamlData 0x0A) 0 0 k ks

/-! ## `updateVersionInContent` -/

/-- What a call of a Go function returning `(string, error)` does. -/
inductive Outcome where
  /-- A run-time panic. -/
  | panic
  /-- A return of the string `s` with error `err` (`none` is `nil`). -/
  | ret (s : GoString) (err : Option GoString)
  deriving DecidableEq, Repr

/-- The text assigned to `valueSet`: `value` inside double quotes when
`unicode.IsDigit(rune(value[0]))`, else `value`; `none` is the index panic of
`value[0]` on an empty `value`. -/
def valueSetOf (value : GoString) : Option GoString :=
  match value with
  | [] => none
  | v0 :: _ => if IsDigit v0 then some ([0x22] ++ value ++ [0x22]) else some value

/-- Go `updateVersionInContent(src, versionKey, value)`. -/
def updateVersionInContent (src versionKey value : GoString) : Outcome :=
  let keyPath := Split versionKey 0x2E
  match findYAMLKeyPosition src keyPath with
  | (_, _, false) =>
    .ret [] (some (ascii "key " ++ Join keyPath [0x2F] ++ ascii " not found"))
  | (position, key, true) =>
    match sliceFrom src position with
    | none => .panic
    | some fromPosition =>
      let keyStart := Index fromPosition key
      let keyEnd := keyStart + key.length
      match sliceFrom src (position + keyEnd) with
      | none => .panic
      | some fromKeyEnd =>
        let keyLineEnd := Index fromKeyEnd [0x0A]
        match valueSetOf value with
        | none => .panic
        | some valueSet =>
          match sliceTo src (position + keyEnd),
              sliceFrom src (position + keyEnd + keyLineEnd) with
          | some head, some tail => .ret (head ++ [0x3A, 0x20] ++ valueSet ++ tail) none
          | _, _ => .panic

/-! ## Notions used to state the results -/

/-- The indent level the loop computes for a line. -/
def curIndentOf (line : GoString) : Nat := (reLeadingSpace line).length / 2

/-- The line is neither empty nor a `#` line. -/
def scanned (line : GoString) : Prop := line ≠ [] ∧ HasPrefix line [0x23] = false

/-- Neither the first nor the last byte of `key` is an ASCII space. -/
def trimmed (key : GoString) : Prop :=
  (∀ x t, key = x :: t → asciiSpace x = false) ∧ (∀ x t, key = t ++ [x] → asciiSpace x = false)

/-- The text of the lines `P`, each followed by a line feed. -/
def linesText : List GoString → GoString
  | [] => []
  | l :: ls => l ++ [0x0A] ++ linesText ls

/-! ## The locator as the specification words it -/

/-- One line of `locate`, in the words of the specification (section 4.1,
step 2). Unlike `loopBody` it advances `pos` by `len(line)+1` on every line
it leaves behind, also on an empty line, a `#` line and a line without a
colon. -/
def locateBody (line : GoString) (pos : Int) (indent : Nat) (k : GoString)
    (ks : List GoString) : Step :=
  if line = [] ∨ HasPrefix line [0x23] then .next (pos + (line.length + 1)) indent k ks
  else
    let curIndent := (reLeadingSpace line).length / 2
    let indent := if curIndent < indent then curIndent else indent
    if curIndent = indent then
      match SplitN2 line 0x3A with
      | [p0, _] =>
        let key := TrimSpace p0
        if key = k then
          match ks with
          | [] => .found (pos + Index line key) key
          | k1 :: ks1 => .next (pos + (line.length + 1)) (indent + 1) k1 ks1
        else .next (pos + (line.length + 1)) indent k ks
      | _ => .next (pos + (line.length + 1)) indent k ks
    else .next (pos + (line.length + 1)) indent k ks

/-- The steps of `locate` over the remaining lines, in the words of the
specification (section 4.1). -/
def locateLines : List GoString → Int → Nat → GoString → List GoString →
    Int × GoString × Bool
  | [], _, _, _, _ => (0, [], false)
  | line :: rest, pos, indent, k, ks =>
    match locateBody line pos indent k ks with
    | .found p key => (p, key, true)
    | .next pos1 indent1 k1 ks1 => locateLines rest pos1 indent1 k1 ks1

/-- The contract `locate(document, keyPath)` in the words of the
specification (section 4.1): its offset counts every line before the matched
one. -/
def locate (document : GoString) (keyPath : List GoString) : Int × GoString × Bool :=
  match keyPath with
  | [] => (0, [], false)
  | k :: ks => locateLines (Split document 0x0A) 0 0 k ks

/-! ## Inputs, validation and the commit message -/

/-- The struct `Input`. -/
structure Input where
  Repository : GoString
  GithubToken : GoString
  Branch : GoString
  ValuesFile : GoString
  VersionKey : GoString
  Version : GoString
  CommitMessage : GoString
  deriving DecidableEq, Repr

/-- Go `strings.ToUpper` on ASCII text (the program passes it ASCII literals
only): `a` to `z` become `A` to `Z`. -/
def ToUpper (s : GoString) : GoString :=
  s.map (fun c => if 0x61 ≤ c ∧ c ≤ 0x7A then c - 0x20 else c)

/-- Go `getInput(key, defaultValue)`; `getenv` is `os.Getenv`, which gives the
empty string for a variable that is not set. -/
def getInput (getenv : GoString → GoString) (key defaultValue : GoString) : GoString :=
  let value := getenv (ascii "INPUT_" ++ ToUpper key)
  if value = [] then defaultValue else value

/-- The `Input` literal built at the start of `main`. -/
def parseInputs (getenv : GoString → GoString) : Input where
  Repository := getInput getenv (ascii "repository") []
  GithubToken := getInput getenv (ascii "github_token") []
  Branch := getInput getenv (ascii "branch") (ascii "main")
  ValuesFile := getInput getenv (ascii "values_file") (ascii "app/values/values.beta.yaml")
  VersionKey := getInput getenv (ascii "version_key") (ascii "version")
  Version := getInput getenv (ascii "version") []
  CommitMessage := getInput getenv (ascii "commit_message") (ascii "update version")

/-- Go `validateInput(input)`: the error, `none` for `nil`. -/
def validateInput (input : Input) : Option GoString :=
  if input.Repository = [] then some (ascii "repository input is required")
  else if input.GithubToken = [] then some (ascii "github_token input is required")
  else none

/-- The `Message` field of the `GitHubUpdateRequest` that `updateFile` builds:
`input.CommitMessage`, replaced by the generated text when it is empty. -/
def updateFileMessage (input : Input) : GoString :=
  if input.CommitMessage = [] then
    ascii "chore: update " ++ input.VersionKey ++ ascii " to " ++ input.Version
  else input.CommitMessage

/-- How a run of `main` ends, the remote file store left aside. -/
inductive MainOutcome where
  /-- An `::error::` line was printed and the process left with `os.Exit(1)`. -/
  | exitError (err : GoString)
  /-- A run-time panic. -/
  | panic
  /-- The call `updateFile(input, fileResp, newContent)` was reached; `message`
  is the `Message` of its request. -/
  | write (message newContent : GoString)
  deriving DecidableEq, Repr

/-- Go `main`, for a run in which `getFileContent` and the base64 decoding
succeed and give the document `content`. -/
def mainWithContent (getenv : GoString → GoString) (content : GoString) : MainOutcome :=
  let input := parseInputs getenv
  match validateInput input with
  | some err => .exitError err
  | none =>
    match updateVersionInContent content input.VersionKey input.Version with
    | .panic => .panic
    | .ret _ (some err) => .exitError err
    | .ret newContent none => .write (updateFileMessage input) newContent

/-- An environment given as a list of `(name, value)` pairs. -/
def envOf (vars : List (GoString × GoString)) (name : GoString) : GoString :=
  match vars.find? (fun p => p.1 = name) with
  | some p => p.2
  | none => []

/-! ## Splitting and joining -/

theorem Split_ne_nil (s : GoString) (c : Nat) : Split s c ≠ [] := by
  induction s with
  | nil => simp [Split]
  | cons a t ih =>
    unfold Split
    split
    · simp
    · split <;> simp

theorem Split_cons_ne (a : Nat) (t : GoString) (c : Nat) (h : a ≠ c) :
    ∃ l ls, Split t c = l :: ls ∧ Split (a :: t) c = (a :: l) :: ls := by
  rcases hs : Split t c with _ | ⟨l, ls⟩
  · exact absurd hs (Split_ne_nil t c)
  · exact ⟨l, ls, rfl, by simp [Split, h, hs]⟩

theorem Join_cons_cons (a b : GoString) (rest : List GoString) (sep : GoString) :
    Join (a :: b :: rest) sep = a ++ sep ++ Join (b :: rest) sep := rfl

theorem Join_cons_of_ne_nil (a : GoString) (ls : List GoString) (sep : GoString)
    (h : ls ≠ []) : Join (a :: ls) sep = a ++ sep ++ Join ls sep := by
  cases ls with
  | nil => exact absurd rfl h
  | cons b rest => rfl

theorem Join_Split (s : GoString) (c : Nat) : Join (Split s c) [c] = s := by
  induction s with
  | nil => simp [Split, Join]
  | cons a t ih =>
    by_cases h : a = c
    · subst h
      have : Split (a :: t) a = [] :: Split t a := by simp [Split]
      rw [this, Join_cons_of_ne_nil _ _ _ (Split_ne_nil t a), ih]
      simp
    · obtain ⟨l, ls, h1, h2⟩ := Split_cons_ne a t c h
      rw [h2]
      rw [h1] at ih
      cases ls with
      | nil => simpa [Join] using ih
      | cons b rest =>
        rw [Join_cons_cons] at ih ⊢
        rw [← ih]
        simp

theorem not_mem_of_mem_Split (s : GoString) (c : Nat) :
    ∀ l ∈ Split s c, c ∉ l := by
  induction s with
  | nil => simp [Split]
  | cons a t ih =>
    by_cases h : a = c
    · subst h
      intro l hl
      simp only [Split, if_true, List.mem_cons] at hl
      rcases hl with rfl | hl
      · simp
      · exact ih l hl
    · obtain ⟨l0, ls, h1, h2⟩ := Split_cons_ne a t c h
      rw [h2]
      rw [h1] at ih
      intro l hl
      rcases List.mem_cons.1 hl with rfl | hl
      · have := ih l0 (List.mem_cons_self _ _)
        simp [this, Ne.symm h]
      · exact ih l (List.mem_cons_of_mem _ hl)

theorem Split_append_sep (l rest : GoString) (c : Nat) (h : c ∉ l) :
    Split (l ++ c :: rest) c = l :: Split rest c := by
  induction l with
  | nil => simp [Split]
  | cons a t ih =>
    have hac : a ≠ c := fun e => h (by simp [e])
    have ht : c ∉ t := fun e => h (List.mem_cons_of_mem _ e)
    have e : Split (a :: (t ++ c :: rest)) c = (a :: t) :: Split rest c := by
      simp only [Split, hac, if_false, ih ht]
    simpa using e

theorem Split_of_not_mem (l : GoString) (c : Nat) (h : c ∉ l) : Split l c = [l] := by
  induction l with
  | nil => simp [Split]
  | cons a t ih =>
    have hac : a ≠ c := fun e => h (by simp [e])
    have ht : c ∉ t := fun e => h (List.mem_cons_of_mem _ e)
    simp only [Split, hac, if_false, ih ht]

theorem Split_Join (ls : List GoString) (c : Nat) (hne : ls ≠ [])
    (h : ∀ l ∈ ls, c ∉ l) : Split (Join ls [c]) c = ls := by
  induction ls with
  | nil => exact absurd rfl hne
  | cons a rest ih =>
    cases rest with
    | nil => simpa [Join] using Split_of_not_mem a c (h a (List.mem_cons_self _ _))
    | cons b rest =>
      rw [Join_cons_cons]
      have := Split_append_sep a (Join (b :: rest) [c]) c (h a (List.mem_cons_self _ _))
      simp only [List.append_assoc, List.singleton_append]
      rw [this, ih (by simp) (fun l hl => h l (List.mem_cons_of_mem _ hl))]

/-! ## Lines the scan passes over -/

theorem loopBody_skip (L : GoString) (pos : Int) (indent : Nat) (k : GoString)
    (ks : List GoString) (hL : L = [] ∨ HasPrefix L [0x23] = true) :
    loopBody L pos indent k ks = .next pos indent k ks := by
  simp [loopBody, hL]

theorem scanLines_cons_skip (L : GoString) (rest : List GoString) (pos : Int)
    (indent : Nat) (k : GoString) (ks : List GoString)
    (hL : L = [] ∨ HasPrefix L [0x23] = true) :
    scanLines (L :: rest) pos indent k ks = scanLines rest pos indent k ks := by
  simp [scanLines, loopBody_skip L pos indent k ks hL]

theorem scanLines_insert (L : GoString) (hL : L = [] ∨ HasPrefix L [0x23] = true) :
    ∀ (ls : List GoString) (i : Nat) (pos : Int) (indent : Nat) (k : GoString)
      (ks : List GoString),
      scanLines (ls.take i ++ L :: ls.drop i) pos indent k ks
        = scanLines ls pos indent k ks := by
  intro ls
  induction ls with
  | nil =>
    intro i pos indent k ks
    simpa using scanLines_cons_skip L [] pos indent k ks hL
  | cons a t ih =>
    intro i pos indent k ks
    cases i with
    | zero => simpa using scanLines_cons_skip L (a :: t) pos indent k ks hL
    | succ j =>
      simp only [List.take_succ_cons, List.drop_succ_cons, List.cons_append, scanLines]
      cases loopBody a pos indent k ks with
      | found p key => rfl
      | next p1 i1 k1 ks1 => exact ih j p1 i1 k1 ks1

theorem findYAMLKeyPosition_insert (doc L : GoString) (keyPath : List GoString) (i : Nat)
    (hL : L = [] ∨ HasPrefix L [0x23] = true) (hnl : 0x0A ∉ L) :
    findYAMLKeyPosition
        (Join ((Split doc 0x0A).take i ++ L :: (Split doc 0x0A).drop i) [0x0A]) keyPath
      = findYAMLKeyPosition doc keyPath := by
  cases keyPath with
  | nil => rfl
  | cons k ks =>
    have hlines : ∀ l ∈ (Split doc 0x0A).take i ++ L :: (Split doc 0x0A).drop i,
        0x0A ∉ l := by
      intro l hl
      rcases List.mem_append.1 hl with h | h
      · exact not_mem_of_mem_Split doc _ l (List.mem_of_mem_take h)
      · rcases List.mem_cons.1 h with rfl | h
        · exact hnl
        · exact not_mem_of_mem_Split doc _ l (List.mem_of_mem_drop h)
    simp only [findYAMLKeyPosition]
    rw [Split_Join _ _ (by simp) hlines]
    exact scanLines_insert L hL _ i 0 0 k ks

/-! ## Occurrences of a substring -/

theorem indexNat_some {s sub : GoString} {i : Nat} (h : indexNat s sub = some i) :
    i ≤ s.length ∧ sub <+: s.drop i ∧ ∀ j, j < i → ¬ sub <+: s.drop j := by
  induction s generalizing i with
  | nil =>
    simp only [indexNat] at h
    split at h
    · cases h
      subst sub
      simp
    · cases h
  | cons c cs ih =>
    simp only [indexNat] at h
    split at h
    · rename_i hp
      cases h
      refine ⟨by simp, ?_, by simp⟩
      simpa using List.isPrefixOf_iff_prefix.1 hp
    · rename_i hp
      rcases hi : indexNat cs sub with _ | i0
      · simp [hi] at h
      · simp only [hi, Option.map_some', Option.some.injEq] at h
        subst h
        obtain ⟨h1, h2, h3⟩ := ih hi
        refine ⟨by simp; omega, by simpa using h2, ?_⟩
        intro j hj
        cases j with
        | zero =>
          intro hpre
          exact hp (List.isPrefixOf_iff_prefix.2 (by simpa using hpre))
        | succ j0 => simpa using h3 j0 (by omega)

theorem indexNat_none {s sub : GoString} (h : indexNat s sub = none) :
    ∀ j, ¬ sub <+: s.drop j := by
  induction s with
  | nil =>
    simp only [indexNat] at h
    split at h
    · cases h
    · rename_i hne
      intro j hp
      simp at hp
      exact hne hp
  | cons c cs ih =>
    simp only [indexNat] at h
    split at h
    · cases h
    · rename_i hp
      rcases hi : indexNat cs sub with _ | i0
      · intro j
        cases j with
        | zero =>
          intro hpre
          exact hp (List.isPrefixOf_iff_prefix.2 (by simpa using hpre))
        | succ j0 => simpa using ih hi j0
      · simp [hi] at h

theorem indexNat_of_occurrence {s sub : GoString} {j : Nat} (h : sub <+: s.drop j) :
    ∃ i, indexNat s sub = some i ∧ i ≤ j := by
  rcases hi : indexNat s sub with _ | i
  · exact absurd h (indexNat_none hi j)
  · refine ⟨i, rfl, ?_⟩
    by_contra hlt
    exact (indexNat_some hi).2.2 j (by omega) h

theorem indexNat_eq_iff {s sub : GoString} {i : Nat} :
    indexNat s sub = some i ↔ sub <+: s.drop i ∧ ∀ j, j < i → ¬ sub <+: s.drop j := by
  constructor
  · intro h
    exact (indexNat_some h).2
  · rintro ⟨h1, h2⟩
    obtain ⟨i0, hi0, hle⟩ := indexNat_of_occurrence h1
    have := (indexNat_some hi0).2.1
    have : i0 = i := by
      by_contra hne
      exact h2 i0 (by omega) this
    rw [hi0, this]

theorem Index_eq_of_indexNat {s sub : GoString} {i : Nat} (h : indexNat s sub = some i) :
    Index s sub = (i : Int) := by
  simp [Index, h]

/-! ## `SplitN` and `TrimSpace` return parts of their argument -/

theorem SplitN2_cases (s : GoString) (c : Nat) :
    (c ∉ s ∧ SplitN2 s c = [s]) ∨
      ∃ a b, s = a ++ c :: b ∧ c ∉ a ∧ SplitN2 s c = [a, b] := by
  induction s with
  | nil => left; simp [SplitN2]
  | cons x t ih =>
    by_cases hx : x = c
    · subst hx
      right
      exact ⟨[], t, by simp, by simp, by simp [SplitN2]⟩
    · rcases ih with ⟨hn, he⟩ | ⟨a, b, hs, hn, he⟩
      · left
        refine ⟨by simp [hn, Ne.symm hx], ?_⟩
        simp [SplitN2, hx, he]
      · right
        refine ⟨x :: a, b, by simp [hs], by simp [hn, Ne.symm hx], ?_⟩
        simp [SplitN2, hx, he]

theorem SplitN2_eq_pair {s p0 r : GoString} {c : Nat} (h : SplitN2 s c = [p0, r]) :
    s = p0 ++ c :: r ∧ c ∉ p0 := by
  rcases SplitN2_cases s c with ⟨_, he⟩ | ⟨a, b, hs, hn, he⟩
  · rw [he] at h
    simp at h
  · rw [he] at h
    simp only [List.cons.injEq, and_true] at h
    obtain ⟨rfl, rfl⟩ := h
    exact ⟨hs, hn⟩

theorem SplitN2_append_sep (a b : GoString) (c : Nat) (h : c ∉ a) :
    SplitN2 (a ++ c :: b) c = [a, b] := by
  rcases SplitN2_cases (a ++ c :: b) c with ⟨hn, _⟩ | ⟨a1, b1, hs, hn, he⟩
  · exact absurd (by simp) hn
  · rw [he]
    have := List.append_eq_append_iff.1 hs
    rcases this with ⟨m, h1, h2⟩ | ⟨m, h1, h2⟩
    · cases m with
      | nil => simp at h1 h2; simp [h1, h2]
      | cons y m =>
        simp at h2
        exact absurd (by rw [h1, h2.1]; simp) hn
    · cases m with
      | nil => simp at h1 h2; simp [h1, h2]
      | cons y m =>
        simp at h2
        exact absurd (by rw [h1, h2.1]; simp) h

theorem TrimRightSpace_isPrefix (s : GoString) : TrimRightSpace s <+: s := by
  unfold TrimRightSpace
  split
  · exact List.nil_prefix
  · split
    · exact List.take_prefix _ _
    · exact List.take_prefix _ _

theorem TrimLeftSpace_isSuffix (s : GoString) : TrimLeftSpace s <:+ s := by
  unfold TrimLeftSpace
  split
  · exact List.nil_suffix
  · exact List.drop_suffix _ _

theorem trimSpaceEnd_isPrefix (s : GoString) : ∀ r, trimSpaceEnd s r <+: s := by
  intro r
  induction r with
  | nil => exact List.nil_prefix
  | cons c r ih =>
    unfold trimSpaceEnd
    split
    · exact (TrimRightSpace_isPrefix _).trans (List.take_prefix _ _)
    · split
      · exact ih
      · exact List.take_prefix _ _

theorem TrimSpace_isInfix (s : GoString) : TrimSpace s <:+: s := by
  induction s with
  | nil => exact List.nil_infix
  | cons c cs ih =>
    unfold TrimSpace
    split
    · exact (TrimRightSpace_isPrefix _).isInfix.trans (TrimLeftSpace_isSuffix _).isInfix
    · split
      · exact ih.trans (List.suffix_cons c cs).isInfix
      · exact (trimSpaceEnd_isPrefix _ _).isInfix

theorem infix_iff_prefix_drop {sub s : GoString} :
    sub <:+: s ↔ ∃ j, j + sub.length ≤ s.length ∧ sub <+: s.drop j := by
  constructor
  · rintro ⟨a, b, rfl⟩
    exact ⟨a.length, by simp, by simp⟩
  · rintro ⟨j, _, b, hb⟩
    exact ⟨s.take j, b, by rw [List.append_assoc, hb, List.take_append_drop]⟩

/-! ## One turn of the loop -/

theorem loopBody_scanned {line : GoString} (hs : scanned line) (pos : Int) (indent : Nat)
    (k : GoString) (ks : List GoString) :
    loopBody line pos indent k ks =
      if curIndentOf line ≤ indent then
        match SplitN2 line 0x3A with
        | [p0, _] =>
          if TrimSpace p0 = k then
            match ks with
            | [] => .found (pos + Index line k) k
            | k1 :: ks1 => .next (pos + (line.length + 1)) (curIndentOf line + 1) k1 ks1
          else .next (pos + (line.length + 1)) (curIndentOf line) k ks
        | _ => .next pos (curIndentOf line) k ks
      else .next (pos + (line.length + 1)) indent k ks := by
  obtain ⟨h1, h2⟩ := hs
  unfold loopBody curIndentOf
  rw [if_neg (by simp [h1, h2])]
  simp only
  by_cases hlt : (reLeadingSpace line).length / 2 < indent
  · rw [if_pos hlt, if_pos rfl, if_pos (le_of_lt hlt)]
    split
    · split
      · rename_i hk
        subst hk
        rfl
      · rfl
    · rfl
  · rw [if_neg hlt]
    by_cases heq : (reLeadingSpace line).length / 2 = indent
    · rw [if_pos heq, if_pos (le_of_eq heq)]
      subst heq
      split
      · split
        · rename_i hk
          subst hk
          rfl
        · rfl
      · rfl
    · rw [if_neg heq, if_neg (by omega)]

theorem loopBody_deeper {line : GoString} (hs : scanned line) (pos : Int) {indent : Nat}
    (k : GoString) (ks : List GoString) (h : indent < curIndentOf line) :
    loopBody line pos indent k ks = .next (pos + (line.length + 1)) indent k ks := by
  rw [loopBody_scanned hs, if_neg (by omega)]

theorem loopBody_no_colon {line : GoString} (hs : scanned line) (pos : Int) {indent : Nat}
    (k : GoString) (ks : List GoString) (h : curIndentOf line ≤ indent)
    (hc : 0x3A ∉ line) :
    loopBody line pos indent k ks = .next pos (curIndentOf line) k ks := by
  rw [loopBody_scanned hs, if_pos h]
  rcases SplitN2_cases line 0x3A with ⟨_, he⟩ | ⟨a, b, hl, _, _⟩
  · rw [he]
  · exact absurd (by rw [hl]; simp) hc

theorem loopBody_colon {line p0 r : GoString} (hs : scanned line) (pos : Int)
    {indent : Nat} (k : GoString) (ks : List GoString) (h : curIndentOf line ≤ indent)
    (hp : SplitN2 line 0x3A = [p0, r]) :
    loopBody line pos indent k ks =
      if TrimSpace p0 = k then
        match ks with
        | [] => .found (pos + Index line k) k
        | k1 :: ks1 => .next (pos + (line.length + 1)) (curIndentOf line + 1) k1 ks1
      else .next (pos + (line.length + 1)) (curIndentOf line) k ks := by
  rw [loopBody_scanned hs, if_pos h, hp]

theorem loopBody_found_iff (line : GoString) (pos : Int) (indent : Nat) (k : GoString)
    (ks : List GoString) (p : Int) (key : GoString) :
    loopBody line pos indent k ks = .found p key ↔
      scanned line ∧ curIndentOf line ≤ indent ∧
        (∃ p0 r, SplitN2 line 0x3A = [p0, r] ∧ TrimSpace p0 = k) ∧
        ks = [] ∧ key = k ∧ p = pos + Index line k := by
  by_cases hs : scanned line
  · by_cases hle : curIndentOf line ≤ indent
    · rcases SplitN2_cases line 0x3A with ⟨hn, he⟩ | ⟨a, b, _, _, he⟩
      · rw [loopBody_no_colon hs pos k ks hle hn]
        constructor
        · intro h; cases h
        · rintro ⟨_, _, ⟨p0, r, h1, _⟩, _⟩
          rw [he] at h1
          simp at h1
      · rw [loopBody_colon hs pos k ks hle he]
        by_cases hk : TrimSpace a = k
        · rw [if_pos hk]
          cases ks with
          | nil =>
            constructor
            · intro h
              cases h
              exact ⟨hs, hle, ⟨a, b, he, hk⟩, rfl, rfl, rfl⟩
            · rintro ⟨_, _, _, _, rfl, rfl⟩
              rfl
          | cons k1 ks1 =>
            constructor
            · intro h; cases h
            · rintro ⟨_, _, _, h, _⟩
              cases h
        · rw [if_neg hk]
          constructor
          · intro h; cases h
          · rintro ⟨_, _, ⟨p0, r, h1, h2⟩, _⟩
            rw [he] at h1
            simp only [List.cons.injEq, and_true] at h1
            exact absurd (h1.1 ▸ h2) hk
    · rw [loopBody_deeper hs pos k ks (by omega)]
      constructor
      · intro h; cases h
      · rintro ⟨_, h, _⟩
        exact absurd h hle
  · have hskip : line = [] ∨ HasPrefix line [0x23] = true := by
      unfold scanned at hs
      by_cases h1 : line = []
      · exact Or.inl h1
      · right
        by_contra h2
        exact hs ⟨h1, by simpa using h2⟩
    rw [loopBody_skip line pos indent k ks hskip]
    constructor
    · intro h; cases h
    · rintro ⟨h, _⟩
      exact absurd h hs

theorem not_scanned_iff (line : GoString) :
    ¬ scanned line ↔ (line = [] ∨ HasPrefix line [0x23] = true) := by
  unfold scanned
  constructor
  · intro hs
    by_cases h1 : line = []
    · exact Or.inl h1
    · right
      by_contra h2
      exact hs ⟨h1, by simpa using h2⟩
  · rintro (h | h) ⟨h1, h2⟩
    · exact h1 h
    · rw [h] at h2
      cases h2

theorem loopBody_next_pos {line : GoString} {pos : Int} {indent : Nat} {k : GoString}
    {ks : List GoString} {p1 : Int} {i1 : Nat} {k1 : GoString} {ks1 : List GoString}
    (h : loopBody line pos indent k ks = .next p1 i1 k1 ks1) :
    p1 = pos ∨ p1 = pos + (line.length + 1) := by
  by_cases hs : scanned line
  · rw [loopBody_scanned hs] at h
    repeat' split at h
    all_goals first
      | (cases h; exact Or.inl rfl)
      | (cases h; exact Or.inr rfl)
      | cases h
  · rw [loopBody_skip line pos indent k ks ((not_scanned_iff line).1 hs)] at h
    cases h
    exact Or.inl rfl

/-! ## Where the scan reports the key -/

theorem loopBody_found_index {line : GoString} {pos : Int} {indent : Nat} {k : GoString}
    {ks : List GoString} {p : Int} {key : GoString}
    (h : loopBody line pos indent k ks = .found p key) :
    ∃ i : Nat, indexNat line key = some i ∧ p = pos + i ∧ i + key.length ≤ line.length := by
  obtain ⟨_, _, ⟨p0, r, hsp, htr⟩, _, rfl, hp⟩ := (loopBody_found_iff _ _ _ _ _ _ _).1 h
  obtain ⟨hl, _⟩ := SplitN2_eq_pair hsp
  have hinf : key <:+: line := by
    have h1 : TrimSpace p0 <:+: p0 := TrimSpace_isInfix p0
    rw [htr] at h1
    exact h1.trans (by rw [hl]; exact (List.prefix_append _ _).isInfix)
  obtain ⟨j, hj, hpre⟩ := infix_iff_prefix_drop.1 hinf
  obtain ⟨i, hi, hij⟩ := indexNat_of_occurrence hpre
  exact ⟨i, hi, by rw [hp, Index_eq_of_indexNat hi], by omega⟩

theorem Join_cons_isPrefix (line : GoString) (rest : List GoString) (sep : GoString) :
    line <+: Join (line :: rest) sep := by
  cases rest with
  | nil => simp [Join]
  | cons b rest =>
    rw [Join_cons_cons, List.append_assoc]
    exact List.prefix_append _ _

theorem scanLines_found_occurrence :
    ∀ (ls : List GoString) (pos : Int) (indent : Nat) (k : GoString) (ks : List GoString)
      (p : Int) (key : GoString), scanLines ls pos indent k ks = (p, key, true) →
      ∃ off : Nat, pos ≤ p ∧ p ≤ pos + off ∧ off + key.length ≤ (Join ls [0x0A]).length ∧
        key <+: (Join ls [0x0A]).drop off := by
  intro ls
  induction ls with
  | nil =>
    intro pos indent k ks p key h
    simp [scanLines] at h
  | cons line rest ih =>
    intro pos indent k ks p key h
    unfold scanLines at h
    rcases hb : loopBody line pos indent k ks with ⟨p', key'⟩ | ⟨p1, i1, k1, ks1⟩
    · rw [hb] at h
      simp only [Prod.mk.injEq, and_true] at h
      obtain ⟨rfl, rfl⟩ := h
      obtain ⟨i, hi, hp, hlen⟩ := loopBody_found_index hb
      obtain ⟨X, hX⟩ := Join_cons_isPrefix line rest [0x0A]
      refine ⟨i, by omega, by omega, ?_, ?_⟩
      · rw [← hX]
        simp only [List.length_append]
        omega
      · rw [← hX, List.drop_append_of_le_length (by omega)]
        exact (indexNat_some hi).2.1.trans (List.prefix_append _ _)
    · rw [hb] at h
      simp only at h
      have hne : rest ≠ [] := by
        rintro rfl
        simp [scanLines] at h
      obtain ⟨off, h1, h2, h3, h4⟩ := ih p1 i1 k1 ks1 p key h
      have hj : Join (line :: rest) [0x0A] = (line ++ [0x0A]) ++ Join rest [0x0A] :=
        Join_cons_of_ne_nil line rest _ hne
      have hp1 := loopBody_next_pos hb
      refine ⟨line.length + 1 + off, by omega, by omega, ?_, ?_⟩
      · rw [hj]
        simp only [List.length_append, List.length_singleton]
        omega
      · rw [hj]
        have : line.length + 1 + off = (line ++ [0x0A]).length + off := by simp
        rw [this, List.drop_append]
        exact h4

theorem findYAMLKeyPosition_found_occurrence {src : GoString} {keyPath : List GoString}
    {p : Int} {key : GoString} (h : findYAMLKeyPosition src keyPath = (p, key, true)) :
    ∃ off : Nat, 0 ≤ p ∧ p ≤ off ∧ off + key.length ≤ src.length ∧ key <+: src.drop off := by
  cases keyPath with
  | nil => simp [findYAMLKeyPosition] at h
  | cons k ks =>
    obtain ⟨off, h1, h2, h3, h4⟩ := scanLines_found_occurrence _ _ _ _ _ _ _ h
    rw [Join_Split] at h3 h4
    exact ⟨off, h1, by omega, h3, h4⟩

/-! ## The rewrite once the key is found -/

theorem sliceFrom_nat (s : GoString) (n : Nat) (h : n ≤ s.length) :
    sliceFrom s (n : Int) = some (s.drop n) := by
  simp [sliceFrom, h]

theorem sliceTo_nat (s : GoString) (n : Nat) (h : n ≤ s.length) :
    sliceTo s (n : Int) = some (s.take n) := by
  simp [sliceTo, h]

theorem sliceFrom_neg (s : GoString) (i : Int) (h : i < 0) : sliceFrom s i = none := by
  simp [sliceFrom]
  omega

/-- The rewrite in terms of `e`, the end of the first occurrence of the key
at or after the reported offset. -/
theorem updateVersionInContent_found {src versionKey : GoString} {p : Int} {key : GoString}
    (h : findYAMLKeyPosition src (Split versionKey 0x2E) = (p, key, true)) :
    ∃ e : Nat, e ≤ src.length ∧ key <:+ src.take e ∧ p + key.length ≤ e ∧
      (∀ i : Nat, indexNat (src.drop p.toNat) key = some i → e = p.toNat + i + key.length) ∧
      ∀ value, updateVersionInContent src versionKey value =
        match valueSetOf value with
        | none => .panic
        | some valueSet =>
          match indexNat (src.drop e) [0x0A] with
          | some j => .ret (src.take e ++ [0x3A, 0x20] ++ valueSet ++ src.drop (e + j)) none
          | none =>
            if e = 0 then .panic
            else .ret (src.take e ++ [0x3A, 0x20] ++ valueSet ++ src.drop (e - 1)) none := by
  obtain ⟨off, h0, h1, h2, h3⟩ := findYAMLKeyPosition_found_occurrence h
  obtain ⟨q, rfl⟩ := Int.eq_ofNat_of_zero_le h0
  have hq : q ≤ off := by omega
  have hocc : key <+: (src.drop q).drop (off - q) := by
    rw [List.drop_drop]
    have : q + (off - q) = off := by omega
    rw [this]
    exact h3
  obtain ⟨i, hi, hio⟩ := indexNat_of_occurrence hocc
  have hpre := (indexNat_some hi).2.1
  rw [List.drop_drop] at hpre
  have hlen : q + i + key.length ≤ src.length := by omega
  refine ⟨q + i + key.length, hlen, ?_, by push_cast; omega, ?_, ?_⟩
  · obtain ⟨t, ht⟩ := hpre
    refine ⟨src.take (q + i), ?_⟩
    have e1 : src = src.take (q + i) ++ (key ++ t) := by
      rw [ht, List.take_append_drop]
    have e2 : src.take (q + i + key.length) = src.take (q + i) ++ key := by
      conv_lhs => rw [e1]
      rw [List.take_append_eq_append_take]
      have hl : (src.take (q + i)).length = q + i := by
        rw [List.length_take]; omega
      rw [hl]
      simp [List.take_of_length_le, hl]
    rw [e2]
  · intro i' hi'
    simp only [Int.toNat_ofNat] at hi'
    rw [hi] at hi'
    cases hi'
    rfl
  · intro value
    unfold updateVersionInContent
    simp only [h]
    rw [sliceFrom_nat src q (by omega)]
    simp only [Index_eq_of_indexNat hi]
    have e3 : (q : Int) + ((i : Int) + (key.length : Int)) = ((q + i + key.length : Nat) : Int) := by
      push_cast; omega
    rw [e3, sliceFrom_nat src _ hlen, sliceTo_nat src _ hlen]
    cases valueSetOf value with
    | none => rfl
    | some vs =>
      simp only
      rcases hj : indexNat (List.drop (q + i + key.length) src) [0x0A] with _ | j
      · simp only [Index, hj]
        by_cases he : q + i + key.length = 0
        · rw [if_pos he, sliceFrom_neg _ _ (by omega)]
        · rw [if_neg he]
          have e4 : ((q + i + key.length : Nat) : Int) + -1
              = ((q + i + key.length - 1 : Nat) : Int) := by omega
          rw [e4, sliceFrom_nat src _ (by omega)]
      · simp only [Index, hj]
        have hjl := (indexNat_some hj).1
        simp only [List.length_drop] at hjl
        have e4 : ((q + i + key.length : Nat) : Int) + (j : Int)
            = ((q + i + key.length + j : Nat) : Int) := by push_cast; rfl
        rw [e4, sliceFrom_nat src _ (by omega)]

/-! ## `TrimSpace` on ASCII text -/

theorem asciiSpace_lt {b : Nat} (h : asciiSpace b = true) : b < 0x80 := by
  simp only [asciiSpace, Bool.or_eq_true, decide_eq_true_eq] at h
  omega

theorem dropWhile_head_not {p : Nat → Bool} {l t : List Nat} {x : Nat}
    (h : l.dropWhile p = x :: t) : p x = false := by
  induction l with
  | nil => simp at h
  | cons a l ih =>
    by_cases ha : p a = true
    · rw [List.dropWhile_cons_of_pos ha] at h
      exact ih h
    · rw [List.dropWhile_cons_of_neg ha] at h
      cases h
      simpa using ha

theorem dropWhile_append_of_all {p : Nat → Bool} (ws l : List Nat)
    (h : ∀ b ∈ ws, p b = true) : (ws ++ l).dropWhile p = l.dropWhile p := by
  induction ws with
  | nil => rfl
  | cons a ws ih =>
    rw [List.cons_append, List.dropWhile_cons_of_pos (h a (List.mem_cons_self _ _))]
    exact ih (fun b hb => h b (List.mem_cons_of_mem _ hb))

theorem trimSpaceEnd_ascii (s : GoString) :
    ∀ r : GoString, (∀ b ∈ r, b < 0x80) → s.take r.length = r.reverse →
      trimSpaceEnd s r = (r.dropWhile asciiSpace).reverse := by
  intro r
  induction r with
  | nil => intro _ _; rfl
  | cons c r ih =>
    intro hascii htake
    have hc : ¬ 0x80 ≤ c := by
      have := hascii c (List.mem_cons_self _ _)
      omega
    unfold trimSpaceEnd
    rw [if_neg hc]
    by_cases hsp : asciiSpace c = true
    · rw [if_pos hsp, List.dropWhile_cons_of_pos hsp]
      apply ih (fun b hb => hascii b (List.mem_cons_of_mem _ hb))
      have h1 := congrArg (List.take r.length) htake
      rw [List.take_take, List.length_cons, Nat.min_eq_left (Nat.le_succ _)] at h1
      rw [h1, List.reverse_cons, List.take_append_of_le_length (by simp)]
      rw [List.take_of_length_le (by simp)]
    · rw [if_neg hsp, List.dropWhile_cons_of_neg hsp]
      simpa using htake

theorem TrimSpace_ascii (s : GoString) (hascii : ∀ b ∈ s, b < 0x80) :
    TrimSpace s = (((s.dropWhile asciiSpace).reverse).dropWhile asciiSpace).reverse := by
  induction s with
  | nil => rfl
  | cons c cs ih =>
    have hc : ¬ 0x80 ≤ c := by
      have := hascii c (List.mem_cons_self _ _)
      omega
    unfold TrimSpace
    rw [if_neg hc]
    by_cases hsp : asciiSpace c = true
    · rw [if_pos hsp, List.dropWhile_cons_of_pos hsp]
      exact ih (fun b hb => hascii b (List.mem_cons_of_mem _ hb))
    · rw [if_neg hsp, List.dropWhile_cons_of_neg hsp]
      apply trimSpaceEnd_ascii
      · intro b hb
        exact hascii b (List.mem_reverse.1 hb)
      · simp

theorem TrimSpace_ascii_spec (s : GoString) (hascii : ∀ b ∈ s, b < 0x80) :
    ∃ ws ws1, s = ws ++ TrimSpace s ++ ws1 ∧ (∀ b ∈ ws, asciiSpace b = true) ∧
      trimmed (TrimSpace s) := by
  rw [TrimSpace_ascii s hascii]
  have h1 : s.takeWhile asciiSpace ++ s.dropWhile asciiSpace = s :=
    List.takeWhile_append_dropWhile _ _
  have h2 : ((s.dropWhile asciiSpace).reverse).takeWhile asciiSpace ++
      ((s.dropWhile asciiSpace).reverse).dropWhile asciiSpace
      = (s.dropWhile asciiSpace).reverse := List.takeWhile_append_dropWhile _ _
  have h3 : s.dropWhile asciiSpace =
      (((s.dropWhile asciiSpace).reverse).dropWhile asciiSpace).reverse ++
        (((s.dropWhile asciiSpace).reverse).takeWhile asciiSpace).reverse := by
    rw [← List.reverse_append, h2, List.reverse_reverse]
  refine ⟨s.takeWhile asciiSpace,
    (((s.dropWhile asciiSpace).reverse).takeWhile asciiSpace).reverse, ?_, ?_, ?_, ?_⟩
  · rw [List.append_assoc, ← h3, h1]
  · intro b hb
    exact List.mem_takeWhile_imp hb
  · intro x t hxt
    rw [hxt] at h3
    exact dropWhile_head_not h3
  · intro x t hxt
    have := congrArg List.reverse hxt
    rw [List.reverse_reverse, List.reverse_append, List.reverse_singleton,
      List.singleton_append] at this
    exact dropWhile_head_not this

theorem TrimSpace_of_trimmed (ws key : GoString) (hws : ∀ b ∈ ws, asciiSpace b = true)
    (hascii : ∀ b ∈ key, b < 0x80) (htr : trimmed key) : TrimSpace (ws ++ key) = key := by
  have hall : ∀ b ∈ ws ++ key, b < 0x80 := by
    intro b hb
    rcases List.mem_append.1 hb with h | h
    · exact asciiSpace_lt (hws b h)
    · exact hascii b h
  rw [TrimSpace_ascii _ hall, dropWhile_append_of_all ws key hws]
  have h1 : key.dropWhile asciiSpace = key := by
    cases key with
    | nil => rfl
    | cons x t =>
      have := htr.1 x t rfl
      rw [List.dropWhile_cons_of_neg (by simp [this])]
  rw [h1]
  have h2 : key.reverse.dropWhile asciiSpace = key.reverse := by
    rcases List.eq_nil_or_concat key with h | ⟨t, x, h⟩
    · subst h; rfl
    · have := htr.2 x t (by simpa using h)
      subst h
      simp only [List.concat_eq_append, List.reverse_append, List.reverse_singleton,
        List.singleton_append]
      rw [List.dropWhile_cons_of_neg (by simp [this])]
  rw [h2, List.reverse_reverse]

/-! ## The scan of the code against the locator of the specification -/

theorem linesText_cons_length (l : GoString) (ls : List GoString) :
    ((linesText (l :: ls)).length : Int) = (l.length + 1) + (linesText ls).length := by
  simp [linesText]
  omega

theorem locateBody_skip (L : GoString) (pos : Int) (indent : Nat) (k : GoString)
    (ks : List GoString) (hL : L = [] ∨ HasPrefix L [0x23] = true) :
    locateBody L pos indent k ks = .next (pos + (L.length + 1)) indent k ks := by
  simp [locateBody, hL]

theorem locateBody_scanned {line : GoString} (hs : scanned line) (pos : Int) (indent : Nat)
    (k : GoString) (ks : List GoString) :
    locateBody line pos indent k ks =
      if curIndentOf line ≤ indent then
        match SplitN2 line 0x3A with
        | [p0, _] =>
          if TrimSpace p0 = k then
            match ks with
            | [] => .found (pos + Index line k) k
            | k1 :: ks1 => .next (pos + (line.length + 1)) (curIndentOf line + 1) k1 ks1
          else .next (pos + (line.length + 1)) (curIndentOf line) k ks
        | _ => .next (pos + (line.length + 1)) (curIndentOf line) k ks
      else .next (pos + (line.length + 1)) indent k ks := by
  obtain ⟨h1, h2⟩ := hs
  unfold locateBody curIndentOf
  rw [if_neg (by simp [h1, h2])]
  simp only
  by_cases hlt : (reLeadingSpace line).length / 2 < indent
  · rw [if_pos hlt, if_pos rfl, if_pos (le_of_lt hlt)]
    split
    · split
      · rename_i hk
        subst hk
        rfl
      · rfl
    · rfl
  · rw [if_neg hlt]
    by_cases heq : (reLeadingSpace line).length / 2 = indent
    · rw [if_pos heq, if_pos (le_of_eq heq)]
      subst heq
      split
      · split
        · rename_i hk
          subst hk
          rfl
        · rfl
      · rfl
    · rw [if_neg heq, if_neg (by omega)]

/-- One line, in the code and in the specification: both report the key, or
both go on past the line, or the code goes on without counting the line. -/
theorem body_cases (line : GoString) (pos pos1 : Int) (indent : Nat) (k : GoString)
    (ks : List GoString) :
    (ks = [] ∧ loopBody line pos indent k ks = .found (pos + Index line k) k ∧
        locateBody line pos1 indent k ks = .found (pos1 + Index line k) k) ∨
      (∃ i1 k1 ks1,
        loopBody line pos indent k ks = .next (pos + (line.length + 1)) i1 k1 ks1 ∧
        locateBody line pos1 indent k ks = .next (pos1 + (line.length + 1)) i1 k1 ks1) ∨
      (∃ i1, loopBody line pos indent k ks = .next pos i1 k ks ∧
        locateBody line pos1 indent k ks = .next (pos1 + (line.length + 1)) i1 k ks) := by
  by_cases hs : scanned line
  · rw [loopBody_scanned hs, locateBody_scanned hs]
    by_cases hle : curIndentOf line ≤ indent
    · rw [if_pos hle, if_pos hle]
      rcases SplitN2_cases line 0x3A with ⟨_, he⟩ | ⟨a, b, _, _, he⟩
      · rw [he]
        exact Or.inr (Or.inr ⟨_, rfl, rfl⟩)
      · rw [he]
        simp only
        by_cases hk : TrimSpace a = k
        · rw [if_pos hk, if_pos hk]
          cases ks with
          | nil => exact Or.inl ⟨rfl, rfl, rfl⟩
          | cons k1 ks1 => exact Or.inr (Or.inl ⟨_, _, _, rfl, rfl⟩)
        · rw [if_neg hk, if_neg hk]
          exact Or.inr (Or.inl ⟨_, _, _, rfl, rfl⟩)
    · rw [if_neg hle, if_neg hle]
      exact Or.inr (Or.inl ⟨_, _, _, rfl, rfl⟩)
  · have hskip := (not_scanned_iff line).1 hs
    rw [loopBody_skip line pos indent k ks hskip, locateBody_skip line pos1 indent k ks hskip]
    exact Or.inr (Or.inr ⟨_, rfl, rfl⟩)

/-- When the scan of the code and the locator of the specification both find
the key, the code's offset has advanced no more than the specified one; and
when they have advanced as much, the lines split as `P ++ L :: R` where the
code reaches `L` with every byte of `P` counted and matches there. -/
theorem scan_against_locate :
    ∀ (ls : List GoString) (pos pos1 : Int) (indent : Nat) (k : GoString)
      (ks : List GoString) (p p1 : Int) (key key1 : GoString),
      scanLines ls pos indent k ks = (p, key, true) →
      locateLines ls pos1 indent k ks = (p1, key1, true) →
      p - pos ≤ p1 - pos1 ∧
        (p - pos = p1 - pos1 →
          ∃ P L R ind1 k1, ls = P ++ L :: R ∧
            loopBody L (pos + (linesText P).length) ind1 k1 [] = .found p key ∧
            ∀ L1 R1, scanLines (P ++ L1 :: R1) pos indent k ks =
              match loopBody L1 (pos + (linesText P).length) ind1 k1 [] with
              | .found a b => (a, b, true)
              | .next a b c d => scanLines R1 a b c d) := by
  intro ls
  induction ls with
  | nil =>
    intro pos pos1 indent k ks p p1 key key1 h
    simp [scanLines] at h
  | cons line rest ih =>
    intro pos pos1 indent k ks p p1 key key1 h h1
    unfold scanLines at h
    unfold locateLines at h1
    rcases body_cases line pos pos1 indent k ks with
      ⟨hks, hb, hb1⟩ | ⟨i1, k1, ks1, hb, hb1⟩ | ⟨i1, hb, hb1⟩
    · rw [hb] at h
      rw [hb1] at h1
      simp only [Prod.mk.injEq, and_true] at h h1
      obtain ⟨rfl, rfl⟩ := h
      obtain ⟨rfl, rfl⟩ := h1
      refine ⟨by omega, fun _ => ⟨[], line, rest, indent, k, rfl, ?_, ?_⟩⟩
      · subst hks
        simpa [linesText] using hb
      · intro L1 R1
        subst hks
        simp [linesText, scanLines]
    · rw [hb] at h
      rw [hb1] at h1
      simp only at h h1
      obtain ⟨hle, hstruct⟩ := ih _ _ _ _ _ _ _ _ _ h h1
      refine ⟨by omega, fun heq => ?_⟩
      obtain ⟨P, L, R, ind1, k2, hls, hfound, hrepl⟩ := hstruct (by omega)
      have hpos : pos + (line.length + 1) + ((linesText P).length : Int)
          = pos + ((linesText (line :: P)).length : Int) := by
        rw [linesText_cons_length]
        omega
      refine ⟨line :: P, L, R, ind1, k2, by rw [hls]; rfl, ?_, ?_⟩
      · rw [← hpos]
        exact hfound
      · intro L1 R1
        rw [← hpos, ← hrepl L1 R1]
        simp only [List.cons_append]
        conv_lhs => unfold scanLines
        rw [hb]
    · rw [hb] at h
      rw [hb1] at h1
      simp only at h h1
      obtain ⟨hle, _⟩ := ih _ _ _ _ _ _ _ _ _ h h1
      have : (0 : Int) ≤ line.length := Int.natCast_nonneg _
      exact ⟨by omega, fun heq => by omega⟩

/-! ## The document around the matched line -/

theorem Join_append_cons (P : List GoString) (L : GoString) (R : List GoString) :
    Join (P ++ L :: R) [0x0A] = linesText P ++ Join (L :: R) [0x0A] := by
  induction P with
  | nil => rfl
  | cons a P ih =>
    rw [List.cons_append, Join_cons_of_ne_nil _ _ _ (by simp), ih]
    simp [linesText]

theorem Split_append_singleton (s : GoString) (c : Nat) :
    Split (s ++ [c]) c = Split s c ++ [[]] := by
  induction s with
  | nil => simp [Split]
  | cons a t ih =>
    by_cases h : a = c
    · subst h
      have h3 : Split (a :: (t ++ [a])) a = [] :: (Split t a ++ [[]]) := by
        simp only [Split, if_true, ih]
      have h4 : Split (a :: t) a = [] :: Split t a := by simp only [Split, if_true]
      rw [h4]
      simpa using h3
    · obtain ⟨l, ls, h1, h2⟩ := Split_cons_ne a t c h
      rw [h2]
      have h3 : Split (a :: (t ++ [c])) c = (a :: l) :: (ls ++ [[]]) := by
        simp only [Split, h, if_false, ih, h1, List.cons_append]
      simpa using h3

theorem takeWhile_append_cons_of_not {p : Nat → Bool} (a : List Nat) (x : Nat)
    (b : List Nat) (hx : p x = false) : (a ++ x :: b).takeWhile p = a.takeWhile p := by
  induction a with
  | nil => simp [List.takeWhile, hx]
  | cons y a ih =>
    by_cases hy : p y = true
    · simp [List.takeWhile_cons, hy, ih]
    · simp [List.takeWhile_cons, hy]

theorem not_reSpace_of_not_asciiSpace {x : Nat} (h : asciiSpace x = false) :
    (x = 0x09 || x = 0x0A || x = 0x0C || x = 0x0D || x = 0x20) = false := by
  simp only [asciiSpace, Bool.or_eq_false_iff, decide_eq_false_iff_not] at h ⊢
  tauto

theorem curIndentOf_ws_key (ws : GoString) (x : Nat) (rest1 rest2 : GoString)
    (hx : asciiSpace x = false) :
    curIndentOf (ws ++ x :: rest1) = curIndentOf (ws ++ x :: rest2) := by
  unfold curIndentOf reLeadingSpace
  rw [takeWhile_append_cons_of_not ws x rest1 (not_reSpace_of_not_asciiSpace hx),
    takeWhile_append_cons_of_not ws x rest2 (not_reSpace_of_not_asciiSpace hx)]

theorem indexNat_nil (s : GoString) : indexNat s [] = some 0 := by
  cases s <;> simp [indexNat]

theorem indexNat_ws_key (ws : GoString) (x : Nat) (t rest : GoString)
    (hws : ∀ b ∈ ws, asciiSpace b = true) (hx : asciiSpace x = false) :
    indexNat (ws ++ (x :: t) ++ rest) (x :: t) = some ws.length := by
  apply indexNat_eq_iff.2
  constructor
  · rw [List.append_assoc, List.drop_left]
    exact List.prefix_append _ _
  · intro j hj hpre
    rw [List.append_assoc, List.drop_append_of_le_length (by omega)] at hpre
    have hne : ws.drop j ≠ [] := by
      intro h0
      have := congrArg List.length h0
      simp at this
      omega
    obtain ⟨y, ys, hy⟩ := List.exists_cons_of_ne_nil hne
    rw [hy] at hpre
    obtain ⟨u, hu⟩ := hpre
    simp only [List.cons_append, List.cons.injEq] at hu
    have hmem : y ∈ ws := List.mem_of_mem_drop (by rw [hy]; exact List.mem_cons_self _ _)
    have := hws y hmem
    rw [← hu.1, hx] at this
    cases this

theorem indexNat_line_feed (M Y : GoString) (hM : 0x0A ∉ M) :
    indexNat (M ++ 0x0A :: Y) [0x0A] = some M.length := by
  apply indexNat_eq_iff.2
  constructor
  · rw [List.drop_left]
    exact ⟨Y, rfl⟩
  · intro j hj hpre
    rw [List.drop_append_of_le_length (by omega)] at hpre
    have hne : M.drop j ≠ [] := by
      intro h0
      have := congrArg List.length h0
      simp at this
      omega
    obtain ⟨y, ys, hy⟩ := List.exists_cons_of_ne_nil hne
    rw [hy] at hpre
    obtain ⟨u, hu⟩ := hpre
    simp only [List.cons_append, List.singleton_append, List.cons.injEq] at hu
    have hmem : y ∈ M := List.mem_of_mem_drop (by rw [hy]; exact List.mem_cons_self _ _)
    rw [← hu.1] at hmem
    exact hM hmem

/-- The rewrite when the reported offset is the true offset `|X|` of the key
and the rest `M` of the key's line is followed by a line feed. -/
theorem updateVersionInContent_at {src versionKey X key M Y value valueSet : GoString}
    (hfind : findYAMLKeyPosition src (Split versionKey 0x2E) = ((X.length : Int), key, true))
    (hsrc : src = X ++ key ++ M ++ 0x0A :: Y) (hM : 0x0A ∉ M)
    (hvs : valueSetOf value = some valueSet) :
    updateVersionInContent src versionKey value =
      .ret (X ++ key ++ [0x3A, 0x20] ++ valueSet ++ 0x0A :: Y) none := by
  obtain ⟨e, _, _, _, he, hupd⟩ := updateVersionInContent_found hfind
  have hdrop : src.drop X.length = key ++ (M ++ 0x0A :: Y) := by
    rw [hsrc]
    simp [List.append_assoc]
  have hidx : indexNat (src.drop (X.length : Int).toNat) key = some 0 := by
    rw [Int.toNat_ofNat, hdrop]
    exact indexNat_eq_iff.2 ⟨by simp, by simp⟩
  have hE := he 0 hidx
  rw [Int.toNat_ofNat, Nat.add_zero] at hE
  have hXk : X.length + key.length = (X ++ key).length := by simp
  have hsrc2 : src = (X ++ key) ++ (M ++ 0x0A :: Y) := by
    rw [hsrc]
    simp [List.append_assoc]
  have htake : src.take e = X ++ key := by
    rw [hE, hXk, hsrc2, List.take_left]
  have hdr : src.drop e = M ++ 0x0A :: Y := by
    rw [hE, hXk, hsrc2, List.drop_left]
  have hdr2 : src.drop (e + M.length) = 0x0A :: Y := by
    rw [← List.drop_drop, hdr, List.drop_left]
  rw [hupd value, hvs]
  simp only
  rw [hdr, indexNat_line_feed M Y hM]
  simp only
  rw [htake, hdr2]

/-! ## The matched line after the rewrite -/

theorem HasPrefix_cons (y : Nat) (b : GoString) (c : Nat) :
    HasPrefix (y :: b) [c] = decide (c = y) := by
  simp only [HasPrefix, List.isPrefixOf, Bool.and_true]
  by_cases h : c = y
  · simp [h]
  · simp [h]

theorem HasPrefix_append_cons (a : GoString) (y : Nat) (b b1 : GoString) (c : Nat) :
    HasPrefix (a ++ y :: b) [c] = HasPrefix (a ++ y :: b1) [c] := by
  cases a with
  | nil => simp [HasPrefix_cons]
  | cons z a => simp [HasPrefix_cons]

/-- Once a line matches the last path segment `key`, with ASCII text before
its colon, the line is `pre ++ key ++ M` with the key first occurring at
`|pre|`, and the line `pre ++ key ++ ": " ++ v` matches in the same way, for
every text `v`. -/
theorem matched_line_rewrite {L p0 r key : GoString} {ind1 : Nat}
    (hs : scanned L) (hle : curIndentOf L ≤ ind1) (hsp : SplitN2 L 0x3A = [p0, r])
    (htrim : TrimSpace p0 = key) (hascii : ∀ b ∈ p0, b < 0x80) :
    ∃ pre M, L = pre ++ key ++ M ∧ Index L key = (pre.length : Int) ∧
      ∀ (v : GoString) (pos : Int),
        loopBody (pre ++ key ++ [0x3A, 0x20] ++ v) pos ind1 key []
          = .found (pos + (pre.length : Int)) key := by
  obtain ⟨hL, hcolon⟩ := SplitN2_eq_pair hsp
  obtain ⟨ws, ws1, hp0, hws, htr⟩ := TrimSpace_ascii_spec p0 hascii
  rw [htrim] at hp0 htr
  cases key with
  | nil =>
    refine ⟨[], L, by simp, by simp [Index, indexNat_nil], ?_⟩
    intro v pos
    have hs1 : scanned ([] ++ [] ++ [0x3A, 0x20] ++ v) := by
      refine ⟨by simp, ?_⟩
      simp [HasPrefix_cons]
    have hcur : curIndentOf ([] ++ [] ++ [0x3A, 0x20] ++ v) ≤ ind1 := by
      simp [curIndentOf, reLeadingSpace, List.takeWhile]
    have hsp1 : SplitN2 ([] ++ [] ++ [0x3A, 0x20] ++ v) 0x3A = [[], 0x20 :: v] := by
      simpa using SplitN2_append_sep [] (0x20 :: v) 0x3A (by simp)
    rw [loopBody_colon hs1 pos [] [] hcur hsp1]
    have ht : TrimSpace [] = ([] : GoString) := rfl
    rw [if_pos ht]
    simp [Index, indexNat_nil]
  | cons x t =>
    have hx : asciiSpace x = false := htr.1 x t rfl
    have hLeq : L = ws ++ (x :: t) ++ (ws1 ++ 0x3A :: r) := by
      rw [hL, hp0]
      simp [List.append_assoc]
    refine ⟨ws, ws1 ++ 0x3A :: r, hLeq, ?_, ?_⟩
    · rw [hLeq]
      exact Index_eq_of_indexNat (indexNat_ws_key ws x t _ hws hx)
    · intro v pos
      have hform : ws ++ x :: t ++ [0x3A, 0x20] ++ v = ws ++ x :: (t ++ [0x3A, 0x20] ++ v) := by
        simp [List.append_assoc]
      have hLform : L = ws ++ x :: (t ++ (ws1 ++ 0x3A :: r)) := by
        rw [hLeq]
        simp [List.append_assoc]
      have hs1 : scanned (ws ++ x :: t ++ [0x3A, 0x20] ++ v) := by
        refine ⟨by simp, ?_⟩
        rw [hform, HasPrefix_append_cons ws x _ (t ++ (ws1 ++ 0x3A :: r)), ← hLform]
        exact hs.2
      have hcur : curIndentOf (ws ++ x :: t ++ [0x3A, 0x20] ++ v) ≤ ind1 := by
        rw [hform, curIndentOf_ws_key ws x _ (t ++ (ws1 ++ 0x3A :: r)) hx, ← hLform]
        exact hle
      have hnc : 0x3A ∉ ws ++ x :: t := by
        intro hmem
        apply hcolon
        rw [hp0]
        exact List.mem_append_left _ hmem
      have hsp1 : SplitN2 (ws ++ x :: t ++ [0x3A, 0x20] ++ v) 0x3A
          = [ws ++ x :: t, 0x20 :: v] := by
        have := SplitN2_append_sep (ws ++ x :: t) (0x20 :: v) 0x3A hnc
        simpa [List.append_assoc] using this
      have hkascii : ∀ b ∈ x :: t, b < 0x80 := by
        intro b hb
        apply hascii
        rw [hp0]
        exact List.mem_append_left _ (List.mem_append_right _ hb)
      rw [loopBody_colon hs1 pos (x :: t) [] hcur hsp1,
        if_pos (TrimSpace_of_trimmed ws (x :: t) hws hkascii htr)]
      simp only
      have hidx : indexNat (ws ++ x :: t ++ [0x3A, 0x20] ++ v) (x :: t) = some ws.length := by
        have := indexNat_ws_key ws x t ([0x3A, 0x20] ++ v) hws hx
        simpa [List.append_assoc] using this
      rw [Index_eq_of_indexNat hidx]

/-! ## Applying the same update twice -/

theorem valueSetOf_some {value : GoString} (hne : value ≠ []) (hnl : 0x0A ∉ value) :
    ∃ vs, valueSetOf value = some vs ∧ 0x0A ∉ vs := by
  cases value with
  | nil => exact absurd rfl hne
  | cons v0 vt =>
    simp only [valueSetOf]
    by_cases hd : IsDigit v0 = true
    · refine ⟨_, by rw [if_pos hd], ?_⟩
      intro hmem
      rcases List.mem_append.1 hmem with h | h
      · rcases List.mem_append.1 h with h | h
        · simp only [List.mem_singleton] at h
          omega
        · exact hnl h
      · simp only [List.mem_singleton] at h
        omega
    · exact ⟨_, by rw [if_neg hd], hnl⟩

/-- The update on a document whose offset is reported as the specification
words it: the result, and the same result when the update is applied to it. -/
theorem update_twice {src versionKey value : GoString} {p : Int} {key : GoString}
    (hascii : ∀ b ∈ src, b < 0x80) (s0 : GoString) (hend : src = s0 ++ [0x0A])
    (hne : value ≠ []) (hnl : 0x0A ∉ value)
    (hfind : findYAMLKeyPosition src (Split versionKey 0x2E) = (p, key, true))
    (hloc : locate src (Split versionKey 0x2E) = (p, key, true)) :
    ∃ d, updateVersionInContent src versionKey value = .ret d none ∧
      updateVersionInContent d versionKey value = .ret d none := by
  rcases hkp : Split versionKey 0x2E with _ | ⟨k, ks⟩
  · exact absurd hkp (Split_ne_nil _ _)
  rw [hkp] at hfind hloc
  have hfind1 : scanLines (Split src 0x0A) 0 0 k ks = (p, key, true) := hfind
  have hloc1 : locateLines (Split src 0x0A) 0 0 k ks = (p, key, true) := hloc
  obtain ⟨_, hstruct⟩ := scan_against_locate _ _ _ _ _ _ _ _ _ _ hfind1 hloc1
  obtain ⟨P, L, R, ind1, k1, hls, hfoundL, hrepl⟩ := hstruct rfl
  obtain ⟨hs, hle, ⟨p0, r, hsp, htrim⟩, _, hkey, hp⟩ :=
    (loopBody_found_iff _ _ _ _ _ _ _).1 hfoundL
  subst hkey
  -- the lines of the document
  have hlines : ∀ l ∈ P ++ L :: R, 0x0A ∉ l := by
    rw [← hls]
    exact not_mem_of_mem_Split src 0x0A
  have hRne : R ≠ [] := by
    rintro rfl
    have h1 : P ++ [L] = Split s0 0x0A ++ [[]] := by
      rw [← hls, hend, Split_append_singleton]
    have h2 := (List.append_inj' h1 rfl).2
    simp only [List.cons.injEq, and_true] at h2
    exact hs.1 h2
  have hsrc : src = linesText P ++ (L ++ [0x0A] ++ Join R [0x0A]) := by
    conv_lhs => rw [← Join_Split src 0x0A, hls, Join_append_cons]
    rw [Join_cons_of_ne_nil _ _ _ hRne]
  obtain ⟨hL, _⟩ := SplitN2_eq_pair hsp
  have hp0ascii : ∀ b ∈ p0, b < 0x80 := by
    intro b hb
    apply hascii
    rw [hsrc, hL]
    simp [hb]
  obtain ⟨pre, M, hLeq, hidx, hline⟩ := matched_line_rewrite hs hle hsp htrim hp0ascii
  have hLnl : 0x0A ∉ L := hlines L (by simp)
  have hMnl : 0x0A ∉ M := fun h => hLnl (by rw [hLeq]; exact List.mem_append_right _ h)
  have hpknl : 0x0A ∉ pre ++ key :=
    fun h => hLnl (by rw [hLeq]; exact List.mem_append_left _ h)
  obtain ⟨vs, hvs, hvsnl⟩ := valueSetOf_some hne hnl
  -- the first update
  have hpX : p = ((linesText P ++ pre).length : Int) := by
    rw [hp, hidx]
    simp
  have hsrcX : src = (linesText P ++ pre) ++ key ++ M ++ 0x0A :: Join R [0x0A] := by
    rw [hsrc, hLeq]
    simp [List.append_assoc]
  have hfindX : findYAMLKeyPosition src (Split versionKey 0x2E)
      = (((linesText P ++ pre).length : Int), key, true) := by
    rw [hkp, ← hpX]
    exact hfind
  have hupd1 := updateVersionInContent_at hfindX hsrcX hMnl hvs
  refine ⟨_, hupd1, ?_⟩
  -- the second update
  have hd : (linesText P ++ pre) ++ key ++ [0x3A, 0x20] ++ vs ++ 0x0A :: Join R [0x0A]
      = Join (P ++ (pre ++ key ++ [0x3A, 0x20] ++ vs) :: R) [0x0A] := by
    rw [Join_append_cons, Join_cons_of_ne_nil _ _ _ hRne]
    simp [List.append_assoc]
  have hlines1 : ∀ l ∈ P ++ (pre ++ key ++ [0x3A, 0x20] ++ vs) :: R, 0x0A ∉ l := by
    intro l hl
    rcases List.mem_append.1 hl with h | h
    · exact hlines l (List.mem_append_left _ h)
    · rcases List.mem_cons.1 h with rfl | h
      · intro hmem
        rcases List.mem_append.1 hmem with h | h
        · rcases List.mem_append.1 h with h | h
          · exact hpknl h
          · simp only [List.mem_cons, List.mem_singleton, List.not_mem_nil, or_false] at h
            omega
        · exact hvsnl h
      · exact hlines l (List.mem_append_right _ (List.mem_cons_of_mem _ h))
  have hfindD : findYAMLKeyPosition
      ((linesText P ++ pre) ++ key ++ [0x3A, 0x20] ++ vs ++ 0x0A :: Join R [0x0A])
      (Split versionKey 0x2E) = (((linesText P ++ pre).length : Int), key, true) := by
    rw [hkp, hd]
    show scanLines (Split _ 0x0A) 0 0 k ks = _
    rw [Split_Join _ _ (by simp) hlines1, hrepl, hline vs]
    simp
  have hM1 : 0x0A ∉ [0x3A, 0x20] ++ vs := by
    intro hmem
    simp only [List.cons_append, List.nil_append, List.mem_cons] at hmem
    rcases hmem with h | h | h
    · omega
    · omega
    · exact hvsnl h
  have hsrcD : (linesText P ++ pre) ++ key ++ [0x3A, 0x20] ++ vs ++ 0x0A :: Join R [0x0A]
      = (linesText P ++ pre) ++ key ++ ([0x3A, 0x20] ++ vs) ++ 0x0A :: Join R [0x0A] := by
    simp [List.append_assoc]
  exact updateVersionInContent_at hfindD hsrcD hM1 hvs

/-- Outside ASCII the key is not always where `strings.Index` finds it: on the
line U+2000, byte `0x80`, `: 1` the key `0x80` is also the second byte of the
space before it, so the update keeps one byte of the line, and on its result
the key is no longer found. -/
theorem update_twice_non_ascii :
    updateVersionInContent [0xE2, 0x80, 0x80, 0x80, 0x3A, 0x20, 0x31, 0x0A] [0x80]
        (ascii "v") = .ret [0xE2, 0x80, 0x3A, 0x20, 0x76, 0x0A] none ∧
    (findYAMLKeyPosition [0xE2, 0x80, 0x3A, 0x20, 0x76, 0x0A] (Split [0x80] 0x2E)).2.2
      = false := by
  decide

/-! ## The claims -/

set_option maxRecDepth 100000

/-- C1, evaluated where it fails: on the document `# version` / `version: 1`
the scan passes over the comment line and matches the second line, yet the
rewrite with key `version` and value `beta` changes the comment line and
leaves the matched line as it was. -/
theorem frame_broken_by_comment_line :
    loopBody (ascii "# version") 0 0 (ascii "version") [] = .next 0 0 (ascii "version") [] ∧
    loopBody (ascii "version: 1") 0 0 (ascii "version") [] = .found 0 (ascii "version") ∧
    updateVersionInContent (ascii "# version\nversion: 1\n") (ascii "version") (ascii "beta")
      = .ret (ascii "# version: beta\nversion: 1\n") none := by
  decide

/-- C2, evaluated where it fails: on the document `# c` / `version: 1` the
scan finds `version` and reports offset 0, while the key token starts at byte
4 (the comment line and its line feed are not counted); the seven bytes at the
reported offset are not the key. -/
theorem offset_ignores_skipped_lines :
    findYAMLKeyPosition (ascii "# c\nversion: 1\n") [ascii "version"]
      = (0, ascii "version", true) ∧
    locate (ascii "# c\nversion: 1\n") [ascii "version"] = (4, ascii "version", true) ∧
    ((ascii "# c\nversion: 1\n").drop 0).take 7 ≠ ascii "version" ∧
    ((ascii "# c\nversion: 1\n").drop 4).take 7 = ascii "version" := by
  decide

/-- C3, evaluated where it fails: on the document `version: 1.0` with no line
feed after the key, the rewrite with value `2.0` keeps the tail of the
document that starts one byte before the end of the key, so the old value
stays and the last byte of the key is doubled. -/
theorem no_line_feed_keeps_old_value :
    updateVersionInContent (ascii "version: 1.0") (ascii "version") (ascii "2.0")
      = .ret (ascii "version: \"2.0\"n: 1.0") none := by
  decide

/-- C4, where it fails: with `repository` and `github_token` set and `version`
unset or empty, `validateInput` reports no error, the value handed to the
rewrite is the empty string, and for every document in which the key resolves
the run ends in the panic of `value[0]`, not in an error. -/
theorem empty_version_not_rejected (getenv : GoString → GoString) (content : GoString)
    (hrepo : getenv (ascii "INPUT_REPOSITORY") ≠ [])
    (htoken : getenv (ascii "INPUT_GITHUB_TOKEN") ≠ [])
    (hversion : getenv (ascii "INPUT_VERSION") = [])
    (hfound : (findYAMLKeyPosition content
      (Split (parseInputs getenv).VersionKey 0x2E)).2.2 = true) :
    validateInput (parseInputs getenv) = none ∧ (parseInputs getenv).Version = [] ∧
      mainWithContent getenv content = .panic := by
  have k1 : ascii "INPUT_" ++ ToUpper (ascii "repository") = ascii "INPUT_REPOSITORY" := by
    decide
  have k2 : ascii "INPUT_" ++ ToUpper (ascii "github_token") = ascii "INPUT_GITHUB_TOKEN" := by
    decide
  have k3 : ascii "INPUT_" ++ ToUpper (ascii "version") = ascii "INPUT_VERSION" := by
    decide
  have hR : (parseInputs getenv).Repository = getenv (ascii "INPUT_REPOSITORY") := by
    simp only [parseInputs, getInput, k1, if_neg hrepo]
  have hT : (parseInputs getenv).GithubToken = getenv (ascii "INPUT_GITHUB_TOKEN") := by
    simp only [parseInputs, getInput, k2, if_neg htoken]
  have hV : (parseInputs getenv).Version = [] := by
    simp only [parseInputs, getInput, k3, hversion, if_true]
  have hval : validateInput (parseInputs getenv) = none := by
    unfold validateInput
    rw [hR, hT, if_neg hrepo, if_neg htoken]
  refine ⟨hval, hV, ?_⟩
  rcases hf : findYAMLKeyPosition content (Split (parseInputs getenv).VersionKey 0x2E)
    with ⟨p, key, b⟩
  rw [hf] at hfound
  simp only at hfound
  subst hfound
  obtain ⟨e, _, _, _, _, hupd⟩ := updateVersionInContent_found hf
  have hpanic : updateVersionInContent content (parseInputs getenv).VersionKey
      (parseInputs getenv).Version = .panic := by
    rw [hupd, hV]
    rfl
  unfold mainWithContent
  simp only [hval, hpanic]

/-- C4 at a concrete input: `repository` and `github_token` set, `version` not
set, and the document `version: 1.0`. -/
theorem empty_version_not_rejected_witness :
    validateInput (parseInputs (envOf [(ascii "INPUT_REPOSITORY", ascii "/o/r"),
      (ascii "INPUT_GITHUB_TOKEN", ascii "t")])) = none ∧
    (parseInputs (envOf [(ascii "INPUT_REPOSITORY", ascii "/o/r"),
      (ascii "INPUT_GITHUB_TOKEN", ascii "t")])).Version = [] ∧
    mainWithContent (envOf [(ascii "INPUT_REPOSITORY", ascii "/o/r"),
      (ascii "INPUT_GITHUB_TOKEN", ascii "t")]) (ascii "version: 1.0\n") = .panic :=
  empty_version_not_rejected (envOf [(ascii "INPUT_REPOSITORY", ascii "/o/r"),
    (ascii "INPUT_GITHUB_TOKEN", ascii "t")]) (ascii "version: 1.0\n")
    (by decide) (by decide) (by decide) (by decide)

/-- C5: when the key path resolves and the value is not empty (first byte
`v0`), the rewrite returns the text of the document up to the end of the key,
then `: `, then the value in double quotes if `v0` is an ASCII digit and the
value as it is otherwise, then a tail of the document. The one case with no
output is the panic for an empty key at the start of a document that has no
line feed. -/
theorem quoting_rule (src versionKey : GoString) (v0 : Nat) (vt : GoString)
    (hfound : (findYAMLKeyPosition src (Split versionKey 0x2E)).2.2 = true) :
    (updateVersionInContent src versionKey (v0 :: vt) = .panic ∧
        (findYAMLKeyPosition src (Split versionKey 0x2E)).2.1 = [] ∧ 0x0A ∉ src) ∨
      ∃ head tail, head <+: src ∧ tail <:+ src ∧
        (findYAMLKeyPosition src (Split versionKey 0x2E)).2.1 <:+ head ∧
        updateVersionInContent src versionKey (v0 :: vt) =
          .ret (head ++ [0x3A, 0x20] ++
            (if 0x30 ≤ v0 ∧ v0 ≤ 0x39 then [0x22] ++ (v0 :: vt) ++ [0x22] else v0 :: vt)
            ++ tail) none := by
  rcases hf : findYAMLKeyPosition src (Split versionKey 0x2E) with ⟨p, key, b⟩
  rw [hf] at hfound
  simp only at hfound
  subst hfound
  obtain ⟨e, he, hkey, hpe, _, hupd⟩ := updateVersionInContent_found hf
  obtain ⟨_, hp0, _⟩ := findYAMLKeyPosition_found_occurrence hf
  have hvs : valueSetOf (v0 :: vt) = some
      (if 0x30 ≤ v0 ∧ v0 ≤ 0x39 then [0x22] ++ (v0 :: vt) ++ [0x22] else v0 :: vt) := by
    unfold valueSetOf IsDigit
    by_cases hd : 0x30 ≤ v0 ∧ v0 ≤ 0x39
    · simp [hd]
    · rw [if_neg hd]
      simp only [Bool.and_eq_true, decide_eq_true_eq, if_neg hd]
  rw [hupd (v0 :: vt), hvs]
  simp only
  rcases hj : indexNat (src.drop e) [0x0A] with _ | j
  · by_cases he0 : e = 0
    · left
      subst he0
      refine ⟨by simp, ?_, ?_⟩
      · have : key.length = 0 := by omega
        exact List.length_eq_zero.1 this
      · intro hmem
        obtain ⟨a, b, hab⟩ := List.append_of_mem hmem
        refine indexNat_none hj a.length ?_
        rw [List.drop_zero, hab, List.drop_left]
        exact ⟨b, rfl⟩
    · right
      exact ⟨src.take e, src.drop (e - 1), List.take_prefix _ _, List.drop_suffix _ _, hkey,
        by rw [if_neg he0]⟩
  · right
    exact ⟨src.take e, src.drop (e + j), List.take_prefix _ _, List.drop_suffix _ _, hkey, rfl⟩

/-- C5 at concrete inputs: on `key: old` the value `42` is written as
`key: "42"` and the value `beta` as `key: beta`. -/
theorem quoting_rule_witness :
    (findYAMLKeyPosition (ascii "key: old\n") (Split (ascii "key") 0x2E)).2.2 = true ∧
    ((updateVersionInContent (ascii "key: old\n") (ascii "key") (0x34 :: [0x32]) = .panic ∧
        (findYAMLKeyPosition (ascii "key: old\n") (Split (ascii "key") 0x2E)).2.1 = [] ∧
        0x0A ∉ ascii "key: old\n") ∨
      ∃ head tail, head <+: ascii "key: old\n" ∧ tail <:+ ascii "key: old\n" ∧
        (findYAMLKeyPosition (ascii "key: old\n") (Split (ascii "key") 0x2E)).2.1 <:+ head ∧
        updateVersionInContent (ascii "key: old\n") (ascii "key") (0x34 :: [0x32]) =
          .ret (head ++ [0x3A, 0x20] ++
            (if 0x30 ≤ 0x34 ∧ 0x34 ≤ 0x39 then [0x22] ++ (0x34 :: [0x32]) ++ [0x22]
              else 0x34 :: [0x32])
            ++ tail) none) ∧
    updateVersionInContent (ascii "key: old\n") (ascii "key") (ascii "42")
      = .ret (ascii "key: \"42\"\n") none ∧
    updateVersionInContent (ascii "key: old\n") (ascii "key") (ascii "beta")
      = .ret (ascii "key: beta\n") none :=
  ⟨by decide, quoting_rule (ascii "key: old\n") (ascii "key") 0x34 [0x32] (by decide),
    by decide, by decide⟩

/-- C6: the rewrite returns an error exactly when the scan of the split key
reports not found; it then returns the empty string with the error
`key <path joined by /> not found` whatever the value is, the empty value
included. The key `app.missing` fails on the three-line example. -/
theorem error_iff_not_found (src versionKey value : GoString) :
    ((∃ s e, updateVersionInContent src versionKey value = .ret s (some e)) ↔
        (findYAMLKeyPosition src (Split versionKey 0x2E)).2.2 = false) ∧
      ((findYAMLKeyPosition src (Split versionKey 0x2E)).2.2 = false →
        ∀ value1, updateVersionInContent src versionKey value1 =
          .ret [] (some (ascii "key " ++ Join (Split versionKey 0x2E) [0x2F]
            ++ ascii " not found"))) ∧
      (findYAMLKeyPosition (ascii "app:\n  version: 1.0.0\n  name: demo\n")
          (Split (ascii "app.missing") 0x2E)).2.2 = false := by
  have hnot : (findYAMLKeyPosition src (Split versionKey 0x2E)).2.2 = false →
      ∀ value1, updateVersionInContent src versionKey value1 =
        .ret [] (some (ascii "key " ++ Join (Split versionKey 0x2E) [0x2F]
          ++ ascii " not found")) := by
    intro hf value1
    rcases hfk : findYAMLKeyPosition src (Split versionKey 0x2E) with ⟨p, key, b⟩
    rw [hfk] at hf
    simp only at hf
    subst hf
    unfold updateVersionInContent
    simp only [hfk]
  refine ⟨⟨?_, fun hf => ⟨_, _, hnot hf value⟩⟩, hnot, by decide⟩
  rintro ⟨s, e, hret⟩
  rcases hfk : findYAMLKeyPosition src (Split versionKey 0x2E) with ⟨p, key, b⟩
  cases b with
  | false => rfl
  | true =>
    exfalso
    obtain ⟨e1, _, _, _, _, hupd⟩ := updateVersionInContent_found hfk
    rw [hupd value] at hret
    repeat' split at hret
    all_goals cases hret

/-- C6 at a concrete input: the key `app.missing` is not found in the
three-line example and the rewrite returns the empty string and the error,
here with the empty value. -/
theorem error_iff_not_found_witness :
    updateVersionInContent (ascii "app:\n  version: 1.0.0\n  name: demo\n")
        (ascii "app.missing") [] =
      .ret [] (some (ascii "key " ++ Join (Split (ascii "app.missing") 0x2E) [0x2F]
        ++ ascii " not found")) :=
  (error_iff_not_found (ascii "app:\n  version: 1.0.0\n  name: demo\n")
    (ascii "app.missing") (ascii "2.0.0")).2.1 (by decide) []

/-- C7 as stated fails, by the textual design of the rewrite: with the
non-empty value `a`, line feed, `version: b` the update of `version: 1.0`
succeeds, and the same update of its result succeeds with a longer
document. -/
theorem idempotence_fails :
    ascii "a\nversion: b" ≠ [] ∧
    updateVersionInContent (ascii "version: 1.0\n") (ascii "version")
        (ascii "a\nversion: b") = .ret (ascii "version: a\nversion: b\n") none ∧
    updateVersionInContent (ascii "version: a\nversion: b\n") (ascii "version")
        (ascii "a\nversion: b") = .ret (ascii "version: a\nversion: b\nversion: b\n") none ∧
    ascii "version: a\nversion: b\nversion: b\n" ≠ ascii "version: a\nversion: b\n" := by
  decide

/-- C7 as amended: for an ASCII document `src` that ends with a line feed, a
key and a non-empty value without line feed, such that the offset reported by
`findYAMLKeyPosition` is the one of the specified locator (every line before
the matched one is counted): when the update succeeds with result `d`, the
same update of `d` succeeds and returns `d` again. -/
theorem idempotent_update (src versionKey value d : GoString)
    (hascii : ∀ b ∈ src, b < 0x80) (hend : [0x0A] <:+ src)
    (hne : value ≠ []) (hnl : 0x0A ∉ value)
    (hacc : findYAMLKeyPosition src (Split versionKey 0x2E)
      = locate src (Split versionKey 0x2E))
    (hsucc : updateVersionInContent src versionKey value = .ret d none) :
    updateVersionInContent d versionKey value = .ret d none := by
  rcases hf : findYAMLKeyPosition src (Split versionKey 0x2E) with ⟨p, key, b⟩
  cases b with
  | false =>
    exfalso
    unfold updateVersionInContent at hsucc
    simp only [hf] at hsucc
    cases hsucc
  | true =>
    obtain ⟨s0, hs0⟩ := hend
    obtain ⟨d1, h1, h2⟩ := update_twice hascii s0 hs0.symm hne hnl hf (hacc ▸ hf)
    rw [h1] at hsucc
    cases hsucc
    exact h2

/-- C7 as amended, at a concrete input: the three-line example, key
`app.version`, value `2.0.0`. -/
theorem idempotent_update_witness :
    updateVersionInContent (ascii "app:\n  version: \"2.0.0\"\n  name: demo\n")
        (ascii "app.version") (ascii "2.0.0")
      = .ret (ascii "app:\n  version: \"2.0.0\"\n  name: demo\n") none :=
  idempotent_update (ascii "app:\n  version: 1.0.0\n  name: demo\n") (ascii "app.version")
    (ascii "2.0.0") (ascii "app:\n  version: \"2.0.0\"\n  name: demo\n")
    (by decide) ⟨ascii "app:\n  version: 1.0.0\n  name: demo", by decide⟩
    (by decide) (by decide) (by decide) (by decide)

/-- C8 as stated fails: the rewrite of the three-line example with value
`2.0.0` does not give a document whose second line is `  version: 2.0.0`. -/
theorem nesting_example_second_line_is_quoted :
    ¬ ∃ d, updateVersionInContent (ascii "app:\n  version: 1.0.0\n  name: demo\n")
        (ascii "app.version") (ascii "2.0.0") = .ret d none ∧
      (Split d 0x0A)[1]? = some (ascii "  version: 2.0.0") := by
  rintro ⟨d, hd, hline⟩
  have hval : updateVersionInContent (ascii "app:\n  version: 1.0.0\n  name: demo\n")
      (ascii "app.version") (ascii "2.0.0")
      = .ret (ascii "app:\n  version: \"2.0.0\"\n  name: demo\n") none := by decide
  rw [hval] at hd
  cases hd
  revert hline
  decide

/-- C8 as amended: on the three-line example the scan of `app`, `version`
matches the `version` line (offset 7, key `version`), and the rewrite with
value `2.0.0` gives the lines `app:`, `  version: "2.0.0"` (the value starts
with a digit, so it is quoted) and `  name: demo`. -/
theorem nesting_example :
    findYAMLKeyPosition (ascii "app:\n  version: 1.0.0\n  name: demo\n")
        [ascii "app", ascii "version"] = (7, ascii "version", true) ∧
    updateVersionInContent (ascii "app:\n  version: 1.0.0\n  name: demo\n")
        (ascii "app.version") (ascii "2.0.0")
      = .ret (ascii "app:\n  version: \"2.0.0\"\n  name: demo\n") none ∧
    Split (ascii "app:\n  version: \"2.0.0\"\n  name: demo\n") 0x0A
      = [ascii "app:", ascii "  version: \"2.0.0\"", ascii "  name: demo", []] := by
  decide

/-- C9: a line `L` that is empty or starts with `#`, put in at any line
position `i` of a document, leaves the found flag and the matched key of the
scan as they were, for every key path; and one turn of the loop on `L` leaves
the offset, the expected indent and the key path as they were. -/
theorem comment_line_robust (doc L : GoString) (keyPath : List GoString) (i : Nat)
    (hL : L = [] ∨ HasPrefix L [0x23] = true) (hline : 0x0A ∉ L) :
    (findYAMLKeyPosition
        (Join ((Split doc 0x0A).take i ++ L :: (Split doc 0x0A).drop i) [0x0A]) keyPath).2
      = (findYAMLKeyPosition doc keyPath).2 ∧
    ∀ pos indent k ks, loopBody L pos indent k ks = .next pos indent k ks := by
  refine ⟨?_, fun pos indent k ks => loopBody_skip L pos indent k ks hL⟩
  rw [findYAMLKeyPosition_insert doc L keyPath i hL hline]

/-- C9 at a concrete input: a comment line put in before the `version` line
of the three-line example. -/
theorem comment_line_robust_witness :
    (findYAMLKeyPosition
        (Join ((Split (ascii "app:\n  version: 1.0.0\n  name: demo\n") 0x0A).take 1
          ++ ascii "# note" ::
            (Split (ascii "app:\n  version: 1.0.0\n  name: demo\n") 0x0A).drop 1) [0x0A])
        [ascii "app", ascii "version"]).2
      = (findYAMLKeyPosition (ascii "app:\n  version: 1.0.0\n  name: demo\n")
          [ascii "app", ascii "version"]).2 ∧
    ∀ pos indent k ks, loopBody (ascii "# note") pos indent k ks = .next pos indent k ks :=
  comment_line_robust (ascii "app:\n  version: 1.0.0\n  name: demo\n") (ascii "# note")
    [ascii "app", ascii "version"] 1 (by decide) (by decide)

/-- C10, where it fails: when `INPUT_COMMIT_MESSAGE` is unset or empty,
`getInput` gives the default `update version`, so the message of the write
request is `update version` and not the generated `chore: update <key> to
<version>`, for every other input. -/
theorem commit_message_default (getenv : GoString → GoString)
    (h : getenv (ascii "INPUT_COMMIT_MESSAGE") = []) :
    updateFileMessage (parseInputs getenv) = ascii "update version" ∧
    updateFileMessage (parseInputs getenv) ≠
      ascii "chore: update " ++ (parseInputs getenv).VersionKey ++ ascii " to "
        ++ (parseInputs getenv).Version := by
  have hk : ascii "INPUT_" ++ ToUpper (ascii "commit_message")
      = ascii "INPUT_COMMIT_MESSAGE" := by decide
  have hm : (parseInputs getenv).CommitMessage = ascii "update version" := by
    simp only [parseInputs, getInput, hk, h, if_true]
  have hu : updateFileMessage (parseInputs getenv) = ascii "update version" := by
    unfold updateFileMessage
    rw [hm, if_neg (by decide)]
  refine ⟨hu, ?_⟩
  rw [hu]
  intro heq
  have h0 := congrArg List.head? heq
  have h1 : (ascii "update version").head? = some 0x75 := by decide
  have h2 : ∀ t : GoString, (ascii "chore: update " ++ t).head? = some 0x63 := by
    intro t
    have : ascii "chore: update " = 0x63 :: (ascii "hore: update ") := by decide
    rw [this]
    rfl
  rw [List.append_assoc, List.append_assoc, h1, h2] at h0
  cases h0

/-- C10 at a concrete input: with only `repository`, `github_token` and
`version` set, the message of the write request is `update version`. -/
theorem commit_message_default_witness :
    updateFileMessage (parseInputs (envOf [(ascii "INPUT_REPOSITORY", ascii "/o/r"),
      (ascii "INPUT_GITHUB_TOKEN", ascii "t"), (ascii "INPUT_VERSION", ascii "1.2.3")]))
      = ascii "update version" :=
  (commit_message_default (envOf [(ascii "INPUT_REPOSITORY", ascii "/o/r"),
    (ascii "INPUT_GITHUB_TOKEN", ascii "t"), (ascii "INPUT_VERSION", ascii "1.2.3")])
    (by decide)).1

end YamlPatch
